import Mathlib

/-!
Verification of the simpy4chips event/resource scheduling substrate and
crossbar arbitration engine, as a shallow embedding of the Python source
(Components/BasicComponent.py, Components/Buffers.py,
Components/Pipelines.py, Components/Arbiters.py, simpyExtensions/util.py).

Machine integers are modelled as Nat/Int; Python's negative list indexing
(reachable in the arbiters through lastport = -1) is modelled by pyIdx;
fallible paths return Except/Option.  All definitions are translated from
the source, not from the specification text.
-/

namespace Spec2Proof

/-! ## Definitions -/

/-- Python list-indexing semantics for an index i with -n ≤ i < n on a
list of length n: a negative i addresses element n + i.  For 0 < n,
Int.emod lands in [0, n), which agrees with Python indexing on that
range. -/
def pyIdx (n : Nat) (i : Int) : Nat := (i % (n : Int)).toNat

/-- Substring test on character lists (Python's `pat in s`). -/
def hasSub (pat : List Char) : List Char → Bool
  | [] => pat.isEmpty
  | c :: rest => pat.isPrefixOf (c :: rest) || hasSub pat rest

/-- Whether `ComponentBase.Log(msgtype, msg)` raises a RuntimeError
(BasicComponent.py lines 44-84).  The four supported message types are
dispatched to the logger; an unsupported type raises at once.  Afterwards
the code runs `if 'ERRROR' in msgtype: raise RuntimeError(fullmsg)` -- the
condition is the literal three-R string 'ERRROR' from the source. -/
def logRaises (msgtype : String) : Bool :=
  if msgtype = "FATAL_ERROR" ∨ msgtype = "WARNING" ∨ msgtype = "INFO" ∨ msgtype = "DEBUG" then
    hasSub "ERRROR".toList msgtype.toList
  else true

/-- CreditBuffer._do_peek (Buffers.py lines 652-658): succeed the peek
event and return True (proceed) when `len(self.items) > event.item`,
where event.item is the peek threshold; otherwise leave it pending and
return None.  Result is (event succeeded, proceed flag). -/
def creditDoPeek (items : List Unit) (thresh : Nat) : Bool × Bool :=
  if thresh < items.length then (true, true) else (false, false)

/-- State of NewEvent (simpyExtensions/util.py): `pvalue = none` models the
PENDING sentinel, `pvalue = some v` a recorded value (itself optional,
since succeed's default value is Python None);  `ok` is the success flag
and `callbacks` the registered callback list (identified by ids). -/
structure NEvent (α : Type) where
  pvalue : Option (Option α)
  ok : Bool
  callbacks : List Nat
deriving DecidableEq, Repr

/-- simpy's `Event.triggered`: the value is no longer the PENDING
sentinel. -/
def NEvent.triggered {α : Type} (e : NEvent α) : Bool := e.pvalue.isSome

/-- Outcome of NewEvent.succeed: either a raised RuntimeError (leaving the
event as it was, since the raise precedes every mutation) or the updated
event together with the simulated time at which the environment will
process it and run its callbacks. -/
inductive SucceedResult (α : Type) where
  | raised (e : NEvent α)
  | done (e : NEvent α) (scheduledAt : Nat)
deriving DecidableEq, Repr

/-- NewEvent.succeed (util.py lines 33-48): raise RuntimeError if the value
is not PENDING; otherwise set _ok, record the value and schedule the event
with the environment at `now + delay`. -/
def NEvent.succeed {α : Type} (e : NEvent α) (now : Nat) (value : Option α) (delay : Nat) :
    SucceedResult α :=
  if e.pvalue.isSome then SucceedResult.raised e
  else SucceedResult.done { e with ok := true, pvalue := some value } (now + delay)

/-- A buffer's store state: the FIFO of items and the configured
capacity (Buffers.py, `Store.__init__(self, env, capacity)`). -/
structure BufState (α : Type) where
  items : List α
  capacity : Nat
deriving DecidableEq, Repr

/-- Buffer._do_put (Buffers.py lines 337-363).  Only acts when
`len(self.items) < self._capacity`.  With a nonzero pre-put delay the
insertion is deferred to a scheduled helper event; otherwise the packet is
inserted in place.  In both sub-branches the put event is succeeded.
Result: (store state after the immediate effects, put event succeeded,
insertion deferred to a scheduled event). -/
def bufferDoPut {α : Type} (b : BufState α) (item : α) (preputdelay : Nat) :
    BufState α × Bool × Bool :=
  if b.items.length < b.capacity then
    if preputdelay ≠ 0 then (b, true, true)
    else ({ b with items := b.items ++ [item] }, true, false)
  else (b, false, false)

/-- Buffer._do_get (Buffers.py lines 467-484).  Only acts when the store
is non-empty.  The head item is captured, the get event is succeeded with
it; with a nonzero pre-get delay the removal is deferred to the event's
callbacks, otherwise `items.pop(0)` happens in place.  Result: (store
state after the immediate effects, value the get event succeeded with,
removal deferred). -/
def bufferDoGet {α : Type} (b : BufState α) (pregetdelay : Nat) :
    BufState α × Option α × Bool :=
  match b.items with
  | [] => (b, none, false)
  | x :: rest =>
    if pregetdelay ≠ 0 then (b, some x, true)
    else ({ b with items := rest }, some x, false)

/-- Result of a resource-specific try-satisfy hook (_do_put / _do_peek /
_do_get): the updated resource state, whether the hook succeeded the
request's event, and the truthiness of the hook's Python return value
(the loop's proceed flag). -/
structure TrigOut (σ : Type) where
  state : σ
  trig : Bool
  proceed : Bool

/-- Record an examined request at the front of the trace of a trigger
run. -/
def consTrace {σ α : Type} (p : α × Bool) :
    Except String (σ × List α × List (α × Bool)) →
      Except String (σ × List α × List (α × Bool))
  | Except.error m => Except.error m
  | Except.ok (s, q, tr) => Except.ok (s, q, p :: tr)

/-- The trigger while-loop shared verbatim by Pipeline._trigger_put
(Pipelines.py lines 149-159), Buffer._trigger_peek (Buffers.py lines
527-539) and CreditBuffer._trigger_peek (Buffers.py lines 637-650):
starting at idx = 0, examine queue[idx] with the try-satisfy hook; if the
request is still untriggered advance idx, otherwise pop queue[idx] and
raise RuntimeError when the popped element differs from the request just
examined; stop when the hook's return value is falsy or the queue is
exhausted.  The fuel argument is the remaining iteration budget
(queue length minus idx, which the loop strictly decreases).  Besides the
final state and queue the embedding returns the trace of examined
requests, each paired with its resolution flag. -/
def triggerLoop {σ α : Type} [DecidableEq α] (doSat : σ → α → TrigOut σ) :
    Nat → σ → List α → Nat → Except String (σ × List α × List (α × Bool))
  | 0, s, q, _ => Except.ok (s, q, [])
  | fuel+1, s, q, idx =>
    if h : idx < q.length then
      let e := q.get ⟨idx, h⟩
      let r := doSat s e
      if r.trig then
        if q.get ⟨idx, h⟩ = e then
          if r.proceed then
            consTrace (e, true) (triggerLoop doSat fuel r.state (q.eraseIdx idx) idx)
          else Except.ok (r.state, q.eraseIdx idx, [(e, true)])
        else Except.error "queue invariant violated"
      else
        if r.proceed then consTrace (e, false) (triggerLoop doSat fuel r.state q (idx+1))
        else Except.ok (r.state, q, [(e, false)])
    else Except.ok (s, q, [])

/-- One invocation of a trigger routine on a request queue. -/
def trigger {σ α : Type} [DecidableEq α] (doSat : σ → α → TrigOut σ) (s : σ) (q : List α) :
    Except String (σ × List α × List (α × Bool)) :=
  triggerLoop doSat q.length s q 0

/-- CreditBuffer._do_peek packaged as a try-satisfy hook over the credit
buffer's items (which the hook never modifies); the request payload is
the peek threshold. -/
def creditPeekSat (items : List Unit) (t : Nat) : TrigOut (List Unit) :=
  ⟨items, (creditDoPeek items t).1, (creditDoPeek items t).2⟩

/-- The scanning while-loop of RoundRobinCrossbar.arbitratePkts
(Arbiters.py lines 378-396) and FixedPriorityCrossbar.arbitratePkts
(lines 492-511): examine up to k candidates starting at cand and
advancing cyclically mod n, returning the first whose pktList entry is
present, or None when the tries are exhausted (k plays the role of
inPorts - count). -/
def scanFirst (pktList : List Bool) (n : Nat) : Nat → Nat → Option Nat
  | _, 0 => none
  | cand, k+1 =>
    if pktList.getD cand false then some cand
    else scanFirst pktList n ((cand + 1) % n) k

/-- RoundRobinCrossbar.arbitratePkts (Arbiters.py lines 372-396): the
candidate starts at (lastport[outPort] + 1) % inPorts computed in Python
Int arithmetic (lastport is -1 at construction), and the loop makes at
most inPorts tries. -/
def rrArbitratePkts (n : Nat) (lastport : Int) (pktList : List Bool) : Option Nat :=
  scanFirst pktList n (pyIdx n (lastport + 1)) n

/-- A round-robin arbitration call together with its lastport update
(`self.lastport[outPort] = candidate` on success). -/
def rrStep (n : Nat) (pktList : List Bool) (lastport : Int) : Option Nat × Int :=
  match rrArbitratePkts n lastport pktList with
  | some c => (some c, (c : Int))
  | none => (none, lastport)

/-- Choice made by the (m+1)-st of a sequence of round-robin arbitration
rounds over a fixed candidate list. -/
def rrTrace (n : Nat) (pktList : List Bool) (lastport : Int) : Nat → Option Nat
  | 0 => (rrStep n pktList lastport).1
  | m+1 => rrTrace n pktList (rrStep n pktList lastport).2 m

/-- `activeports` of FixedPriorityCrossbar.arbitratePkts (Arbiters.py
line 483): the inputs currently offering a packet. -/
def fpActive (n : Nat) (pktList : List Bool) : List Nat :=
  (List.range n).filter (fun i => pktList.getD i false)

/-- The candidate list after FixedPriorityCrossbar.arbitratePkts blanks
every active port of priority below maxpriority (Arbiters.py lines
488-490). -/
def fpMasked (n : Nat) (priorities : List Nat) (pktList : List Bool) (maxpriority : Nat) :
    List Bool :=
  (List.range n).map (fun i => pktList.getD i false && decide (priorities.getD i 0 = maxpriority))

/-- FixedPriorityCrossbar.arbitratePkts (Arbiters.py lines 481-511),
modelling the returned choice: take the numerically largest priority
among active ports (Python's max() raises on an empty list, modelled as
None, unused under the claims' non-empty hypothesis), blank lower-class
candidates, then round-robin scan from
(lastportPerClass[maxpriority][outPort] + 1) % inPorts. -/
def fpArbitratePkts (n : Nat) (priorities : List Nat) (lastportPerClass : Nat → Int)
    (pktList : List Bool) : Option Nat :=
  match ((fpActive n pktList).map (fun p => priorities.getD p 0)).max? with
  | none => none
  | some maxpriority =>
    scanFirst (fpMasked n priorities pktList maxpriority) n
      (pyIdx n (lastportPerClass maxpriority + 1)) n

/-- Per-output arbitration state of a WeightedRoundRobinCrossbar: the
grant counters (Arbiters.py line 408, `grants = [0]*inPorts`) and
`lastport[outPort]` (line 24, initialized to -1).  lastport is an Int
because the source stores the raw candidate value, which can be the
Python index -1. -/
structure WrrState where
  grants : List Nat
  lastport : Int
deriving DecidableEq, Repr

/-- The while-loop of WeightedRoundRobinCrossbar.arbitratePkts
(Arbiters.py lines 420-436), with k = inPorts - count the remaining
tries; candidate is a raw Python index (possibly -1, read through
pyIdx), selectedCandidate the raw selected value.  When a candidate with
headroom (weights[c] > grants[c]) is found, decisionMade ends the loop;
the grants-reset check of that same iteration cannot fire because
weights[c] > grants[c] excludes grants[c] == weights[c]. -/
def wrrLoop (n : Nat) (weights : List Nat) (pktList : List Bool) :
    Nat → Int → List Nat → Option Int → List Nat × Option Int
  | 0, _, g, sel => (g, sel)
  | k+1, cand, g, sel =>
    let c := pyIdx n cand
    if pktList.getD c false then
      if g.getD c 0 < weights.getD c 0 then
        (g, some cand)
      else
        let sel2 := if sel.isNone then some cand else sel
        let g2 := if g.getD c 0 = weights.getD c 0 then g.set c 0 else g
        wrrLoop n weights pktList k ((cand + 1) % (n : Int)) g2 sel2
    else
      wrrLoop n weights pktList k ((cand + 1) % (n : Int)) g sel

/-- WeightedRoundRobinCrossbar.arbitratePkts (Arbiters.py lines
410-449): scan starting at candidate = lastport[outPort]; on a
selection, lastport becomes the raw selected value and the winner's
grant counter is incremented. -/
def wrrArbitratePkts (n : Nat) (weights : List Nat) (pktList : List Bool) (st : WrrState) :
    Option Int × WrrState :=
  match wrrLoop n weights pktList n st.lastport st.grants none with
  | (g2, some s) => (some s, ⟨g2.set (pyIdx n s) (g2.getD (pyIdx n s) 0 + 1), s⟩)
  | (g2, none) => (none, ⟨g2, st.lastport⟩)

/-- A full-contention arbitration call: every input offers a
candidate. -/
def wrrStep (n : Nat) (weights : List Nat) (st : WrrState) : Option Int × WrrState :=
  wrrArbitratePkts n weights (List.replicate n true) st

/-- State after one full-contention arbitration call. -/
def wrrNext (n : Nat) (weights : List Nat) (st : WrrState) : WrrState :=
  (wrrStep n weights st).2

/-- The per-output state of a freshly constructed crossbar: all grant
counters zero and lastport = -1. -/
def wrrInit (n : Nat) : WrrState := ⟨List.replicate n 0, -1⟩

/-- Canonical input index (via pyIdx) granted in round m of a
full-contention run that starts in state st; n is returned in the case,
unreachable under the theorems' hypotheses, of no selection. -/
def wrrTraceFrom (n : Nat) (weights : List Nat) (st : WrrState) (m : Nat) : Nat :=
  match (wrrStep n weights ((wrrNext n weights)^[m] st)).1 with
  | some s => pyIdx n s
  | none => n

/-- Number of grants input j receives in the first len rounds of a
full-contention run starting in state st. -/
def wrrCountFrom (n : Nat) (weights : List Nat) (st : WrrState) (len j : Nat) : Nat :=
  ((List.range len).filter (fun t => wrrTraceFrom n weights st t = j)).length

/-- Input granted in round m of the full-contention run from
construction. -/
def wrrTrace (n : Nat) (weights : List Nat) (m : Nat) : Nat :=
  wrrTraceFrom n weights (wrrInit n) m

/-- Number of grants input j receives in the window of P consecutive
rounds starting at round k of the full-contention run from
construction. -/
def wrrWindow (n : Nat) (weights : List Nat) (k P j : Nat) : Nat :=
  ((List.range P).filter (fun t => wrrTrace n weights (k + t) = j)).length

/-- Grant vector that is k at input i and zero elsewhere (the shape
every reachable grants vector has under full contention). -/
def eVec (n i k : Nat) : List Nat := (List.replicate n 0).set i k

/-- Cyclic scan for the first input with positive weight: up to k tries
starting at cand. -/
def scanW (n : Nat) (weights : List Nat) : Nat → Nat → Option Nat
  | _, 0 => none
  | cand, k+1 =>
    if 0 < weights.getD cand 0 then some cand
    else scanW n weights ((cand + 1) % n) k

/-- The input whose block of grants follows input i's in a
full-contention weighted round-robin cycle: the first input after i
(cyclically, n-1 tries) with positive weight, or i itself when every
other weight is zero. -/
def nextBlock (n : Nat) (weights : List Nat) (i : Nat) : Nat :=
  match scanW n weights ((i + 1) % n) (n - 1) with
  | some u => u
  | none => i

/-- Offset (in 1..len) of the last input among (i+1)%n .. (i+len)%n with
positive weight, 0 when there is none. -/
def lastNZd (n : Nat) (weights : List Nat) (i : Nat) : Nat → Nat
  | 0 => 0
  | len+1 =>
    if 0 < weights.getD ((i + (len + 1)) % n) 0 then len + 1 else lastNZd n weights i len

/-- Sum of the weights of inputs (i+1)%n .. (i+len)%n. -/
def wsum (n : Nat) (weights : List Nat) (i : Nat) : Nat → Nat
  | 0 => 0
  | len+1 => wsum n weights i len + weights.getD ((i + (len + 1)) % n) 0

/-- Grants received by input j while the blocks of inputs
(i+1)%n .. (i+len)%n are served. -/
def cw (n : Nat) (weights : List Nat) (i j : Nat) : Nat → Nat
  | 0 => 0
  | len+1 =>
    cw n weights i j len +
      (if (i + (len + 1)) % n = j then weights.getD ((i + (len + 1)) % n) 0 else 0)

end Spec2Proof

namespace Spec2Proof

/-! ## Theorems -/

theorem pyIdx_lt (n : Nat) (hn : 0 < n) (i : Int) : pyIdx n i < n := by
  unfold pyIdx
  have h1 : i % (n : Int) < (n : Int) := Int.emod_lt_of_pos i (by exact_mod_cast hn)
  omega

theorem pyIdx_natCast (n : Nat) (_hn : 0 < n) (i : Nat) (h : i < n) : pyIdx n i = i := by
  unfold pyIdx
  rw [Int.emod_eq_of_lt (by omega) (by exact_mod_cast h)]
  omega

theorem pyIdx_neg_one (n : Nat) (hn : 0 < n) : pyIdx n (-1) = n - 1 := by
  unfold pyIdx
  have h1 : (-1 : Int) % (n : Int) = ((n : Int) - 1) % (n : Int) := by
    have h2 : ((n : Int) - 1 + (n : Int) * (-1)) % (n : Int) = ((n : Int) - 1) % (n : Int) :=
      Int.add_mul_emod_self_left ((n : Int) - 1) (n : Int) (-1)
    have h3 : (n : Int) - 1 + (n : Int) * (-1) = -1 := by ring
    rw [h3] at h2
    exact h2
  rw [h1, Int.emod_eq_of_lt (by omega) (by omega)]
  omega

/-- Advancing a Python index: `(i + 1) % n` (Int arithmetic as Python
computes it) equals the Nat value `(pyIdx n i + 1) % n`. -/
theorem emod_succ_commute (n : Nat) (hn : 0 < n) (i : Int) :
    (i + 1) % (n : Int) = (((pyIdx n i + 1) % n : Nat) : Int) := by
  have hne : (n : Int) ≠ 0 := by exact_mod_cast Nat.pos_iff_ne_zero.mp hn
  have h0 : 0 ≤ i % (n : Int) := Int.emod_nonneg i hne
  have hp : ((pyIdx n i : Nat) : Int) = i % (n : Int) := by
    unfold pyIdx
    exact Int.toNat_of_nonneg h0
  calc (i + 1) % (n : Int) = (i % (n : Int) + 1) % (n : Int) := (Int.emod_add_emod i (n : Int) 1).symm
    _ = (((pyIdx n i : Nat) : Int) + 1) % (n : Int) := by rw [hp]
    _ = (((pyIdx n i + 1 : Nat) : Int)) % (((n : Nat) : Int)) := by push_cast; ring_nf
    _ = (((pyIdx n i + 1) % n : Nat) : Int) := (Int.ofNat_emod _ _).symm

/-- C1: the claim says a FATAL_ERROR log terminates the run by raising an
exception.  In the source the raise is guarded by `'ERRROR' in msgtype`
(a three-R typo, BasicComponent.py line 83): the guard is false for
'FATAL_ERROR', so Log returns normally and execution continues; the
intended two-R guard would have fired. -/
theorem c1_fatal_log_does_not_raise :
    logRaises "FATAL_ERROR" = false ∧ hasSub "ERROR".toList "FATAL_ERROR".toList = true := by
  constructor <;> rfl

/-- C4: the claim says a credit-buffer peek with threshold t succeeds
exactly when the token count c satisfies c ≥ t, in particular when c = t.
The source tests `len(self.items) > event.item` (strict), so with one
credit and threshold one the peek stays pending, contradicting both the
claim and the comment in the source that says "greater than or equals". -/
theorem c4_peek_at_threshold_stays_pending :
    creditDoPeek (List.replicate 1 ()) 1 = (false, false) ∧
      creditDoPeek (List.replicate 2 ()) 1 = (true, true) := by
  constructor <;> rfl

/-- C8: succeed on an already-triggered event raises a RuntimeError and
leaves the event (value, success flag, callback list) unchanged; on a
pending event it records the value, marks success, keeps the callback
list, and schedules processing at now + delay. -/
theorem c8_succeed_exactly_once {α : Type} (e : NEvent α) (now : Nat) (v : Option α) (d : Nat) :
    (e.triggered = true → e.succeed now v d = SucceedResult.raised e) ∧
    (e.triggered = false →
      e.succeed now v d =
        SucceedResult.done { pvalue := some v, ok := true, callbacks := e.callbacks } (now + d)) := by
  constructor
  · intro h
    unfold NEvent.succeed
    unfold NEvent.triggered at h
    simp [h]
  · intro h
    unfold NEvent.succeed
    unfold NEvent.triggered at h
    simp [h]

theorem c8_succeed_exactly_once_witness :
    ((⟨some (some 7), true, [4]⟩ : NEvent Nat).triggered = true →
      (⟨some (some 7), true, [4]⟩ : NEvent Nat).succeed 3 (some 9) 2 =
        SucceedResult.raised ⟨some (some 7), true, [4]⟩) ∧
    ((⟨some (some 7), true, [4]⟩ : NEvent Nat).triggered = false →
      (⟨some (some 7), true, [4]⟩ : NEvent Nat).succeed 3 (some 9) 2 =
        SucceedResult.done ⟨some (some 9), true, [4]⟩ 5) :=
  c8_succeed_exactly_once ⟨some (some 7), true, [4]⟩ 3 (some 9) 2

/-- C9: with occupancy within [0, capacity], the put try-satisfy keeps it
there and refuses to act on a full buffer (the request stays pending,
nothing is inserted or scheduled), and the get try-satisfy keeps it there
and refuses to act on an empty buffer (nothing is removed in place or
scheduled for removal). -/
theorem c9_occupancy_bounds {α : Type} (b : BufState α) (item : α) (dput dget : Nat)
    (hb : b.items.length ≤ b.capacity) :
    ((bufferDoPut b item dput).1.items.length ≤ b.capacity ∧
      (b.items.length = b.capacity →
        bufferDoPut b item dput = (b, false, false))) ∧
    ((bufferDoGet b dget).1.items.length ≤ b.items.length ∧
      (b.items.length = 0 → bufferDoGet b dget = (b, none, false))) := by
  refine ⟨⟨?_, ?_⟩, ?_, ?_⟩
  · by_cases h1 : b.items.length < b.capacity
    · by_cases h2 : dput ≠ 0
      · have he : bufferDoPut b item dput = (b, true, true) := by
          unfold bufferDoPut; rw [if_pos h1, if_pos h2]
        rw [he]; exact hb
      · have he : bufferDoPut b item dput = ({ b with items := b.items ++ [item] }, true, false) := by
          unfold bufferDoPut; rw [if_pos h1, if_neg h2]
        rw [he]
        show (b.items ++ [item]).length ≤ b.capacity
        rw [List.length_append]
        simp only [List.length_singleton]
        omega
    · have he : bufferDoPut b item dput = (b, false, false) := by
        unfold bufferDoPut; rw [if_neg h1]
      rw [he]; exact hb
  · intro h
    unfold bufferDoPut
    rw [if_neg (by omega)]
  · cases hm : b.items with
    | nil =>
      have he : bufferDoGet b dget = (b, none, false) := by
        unfold bufferDoGet; rw [hm]
      rw [he]
      show b.items.length ≤ [].length
      rw [hm]
    | cons x rest =>
      by_cases h2 : dget ≠ 0
      · have he : bufferDoGet b dget = (b, some x, true) := by
          unfold bufferDoGet; rw [hm]
          show (if dget ≠ 0 then (b, some x, true)
            else ({ b with items := rest }, some x, false)) = (b, some x, true)
          rw [if_pos h2]
        rw [he]
        show b.items.length ≤ (x :: rest).length
        rw [hm]
      · have he : bufferDoGet b dget = ({ b with items := rest }, some x, false) := by
          unfold bufferDoGet; rw [hm]
          show (if dget ≠ 0 then (b, some x, true)
            else ({ b with items := rest }, some x, false)) = ({ b with items := rest }, some x, false)
          rw [if_neg h2]
        rw [he]
        show rest.length ≤ (x :: rest).length
        simp
  · intro h
    have hm : b.items = [] := List.length_eq_zero.mp h
    unfold bufferDoGet
    rw [hm]

theorem eraseIdx_drop_self {α : Type} (q : List α) (idx : Nat) (h : idx < q.length) :
    (q.eraseIdx idx).drop idx = q.drop (idx + 1) := by
  rw [List.eraseIdx_eq_take_drop_succ]
  have hl : (q.take idx).length = idx := by rw [List.length_take]; omega
  calc (q.take idx ++ q.drop (idx + 1)).drop idx
      = (q.take idx ++ q.drop (idx + 1)).drop (q.take idx).length := by rw [hl]
    _ = q.drop (idx + 1) := List.drop_left _ _

theorem drop_take_cons {α : Type} (q : List α) (idx : Nat) (h : idx < q.length) :
    q.drop idx = q.get ⟨idx, h⟩ :: q.drop (idx + 1) := by
  rw [List.get_eq_getElem]
  exact List.drop_eq_getElem_cons h

theorem get_not_mem_eraseIdx {α : Type} (q : List α) (idx : Nat) (h : idx < q.length)
    (hq : q.Nodup) : q.get ⟨idx, h⟩ ∉ q.eraseIdx idx := by
  intro hmem
  rw [List.eraseIdx_eq_take_drop_succ] at hmem
  have hdec : q = q.take idx ++ (q.get ⟨idx, h⟩ :: q.drop (idx + 1)) := by
    conv_lhs => rw [← List.take_append_drop idx q]
    rw [drop_take_cons q idx h]
  rw [hdec] at hq
  rcases List.mem_append.mp hmem with h1 | h2
  · rcases List.nodup_append.mp hq with ⟨_, _, hdisj⟩
    exact hdisj h1 (List.mem_cons_self _ _)
  · rcases List.nodup_append.mp hq with ⟨_, hn2, _⟩
    exact (List.nodup_cons.mp hn2).1 h2

theorem triggerLoop_spec {σ α : Type} [DecidableEq α] (doSat : σ → α → TrigOut σ)
    (H : ∀ s e, (doSat s e).proceed = true → (doSat s e).trig = true) :
    ∀ (fuel : Nat) (s : σ) (q : List α) (idx : Nat), fuel + idx = q.length →
      ∃ s2 q2 tr, triggerLoop doSat fuel s q idx = Except.ok (s2, q2, tr) ∧
        tr.map Prod.fst = (q.drop idx).take tr.length ∧
        (∀ p ∈ tr.dropLast, p.2 = true) ∧
        List.Sublist q2 q ∧
        (q.Nodup → ∀ x, (x, true) ∈ tr → x ∉ q2) := by
  intro fuel
  induction fuel with
  | zero =>
    intro s q idx hlen
    refine ⟨s, q, [], rfl, by simp, by simp, List.Sublist.refl q, ?_⟩
    intro _ x hx
    simp at hx
  | succ fuel ih =>
    intro s q idx hlen
    have h : idx < q.length := by omega
    simp only [triggerLoop, dif_pos h]
    by_cases htrig : (doSat s (q.get ⟨idx, h⟩)).trig = true
    · rw [if_pos htrig]
      simp only [if_true]
      by_cases hproc : (doSat s (q.get ⟨idx, h⟩)).proceed = true
      · rw [if_pos hproc]
        obtain ⟨s2, q2, tr, hok, hmap, hlast, hsub, hnod⟩ :=
          ih (doSat s (q.get ⟨idx, h⟩)).state (q.eraseIdx idx) idx
            (by rw [List.length_eraseIdx_of_lt h]; omega)
        refine ⟨s2, q2, (q.get ⟨idx, h⟩, true) :: tr, ?_, ?_, ?_, ?_, ?_⟩
        · rw [hok]
          rfl
        · simp only [List.map_cons, List.length_cons]
          rw [drop_take_cons q idx h, List.take_succ_cons]
          rw [eraseIdx_drop_self q idx h] at hmap
          rw [hmap]
        · intro p hp
          cases tr with
          | nil => simp at hp
          | cons t ts =>
            rw [List.dropLast_cons₂] at hp
            rcases List.mem_cons.mp hp with h1 | h2
            · rw [h1]
            · exact hlast p h2
        · exact List.Sublist.trans hsub (List.eraseIdx_sublist q idx)
        · intro hq x hx
          rcases List.mem_cons.mp hx with h1 | h2
          · have hxe : x = q.get ⟨idx, h⟩ := congrArg Prod.fst h1
            rw [hxe]
            intro hmem
            exact get_not_mem_eraseIdx q idx h hq (hsub.subset hmem)
          · exact hnod (hq.sublist (List.eraseIdx_sublist q idx)) x h2
      · rw [if_neg hproc]
        refine ⟨_, _, [(q.get ⟨idx, h⟩, true)], rfl, ?_, ?_, List.eraseIdx_sublist q idx, ?_⟩
        · simp only [List.map_cons, List.map_nil, List.length_cons, List.length_nil]
          rw [drop_take_cons q idx h, List.take_succ_cons, List.take_zero]
        · intro p hp
          simp at hp
        · intro hq x hx
          have hxe : x = q.get ⟨idx, h⟩ :=
            congrArg Prod.fst (List.mem_singleton.mp hx)
          rw [hxe]
          exact get_not_mem_eraseIdx q idx h hq
    · by_cases hproc : (doSat s (q.get ⟨idx, h⟩)).proceed = true
      · exact absurd (H s (q.get ⟨idx, h⟩) hproc) htrig
      · rw [if_neg htrig, if_neg hproc]
        refine ⟨_, _, [(q.get ⟨idx, h⟩, false)], rfl, ?_, ?_, List.Sublist.refl q, ?_⟩
        · simp only [List.map_cons, List.map_nil, List.length_cons, List.length_nil]
          rw [drop_take_cons q idx h, List.take_succ_cons, List.take_zero]
        · intro p hp
          simp at hp
        · intro _ x hx
          have := List.mem_singleton.mp hx
          simp at this

/-- C2: one invocation of a trigger routine examines requests from the
front of the queue in order (the examined trace is an initial segment of
the queue), and every examined request other than the last one examined
was resolved: the instant try-satisfy leaves a request pending, scanning
stops, so a later-queued request is never served while an earlier one is
still pending. -/
theorem c2_head_of_line {σ α : Type} [DecidableEq α] (doSat : σ → α → TrigOut σ)
    (H : ∀ s e, (doSat s e).proceed = true → (doSat s e).trig = true) (s : σ) (q : List α) :
    ∃ s2 q2 tr, trigger doSat s q = Except.ok (s2, q2, tr) ∧
      tr.map Prod.fst = q.take tr.length ∧
      (∀ p ∈ tr.dropLast, p.2 = true) := by
  obtain ⟨s2, q2, tr, hok, hmap, hlast, _, _⟩ :=
    triggerLoop_spec doSat H q.length s q 0 (by omega)
  rw [List.drop_zero] at hmap
  exact ⟨s2, q2, tr, hok, hmap, hlast⟩

/-- C3: a trigger invocation on a duplicate-free queue never errors (in
particular the pop-consistency check that raises RuntimeError always sees
the request it just examined), and afterwards no resolved request is left
in the queue: each request the try-satisfy hook succeeded was removed at
that instant, so the queue only ever holds still-pending requests. -/
theorem c3_queue_holds_only_pending {σ α : Type} [DecidableEq α] (doSat : σ → α → TrigOut σ)
    (H : ∀ s e, (doSat s e).proceed = true → (doSat s e).trig = true) (s : σ) (q : List α)
    (hq : q.Nodup) :
    ∃ s2 q2 tr, trigger doSat s q = Except.ok (s2, q2, tr) ∧
      ∀ x, (x, true) ∈ tr → x ∉ q2 := by
  obtain ⟨s2, q2, tr, hok, _, _, _, hnod⟩ :=
    triggerLoop_spec doSat H q.length s q 0 (by omega)
  exact ⟨s2, q2, tr, hok, hnod hq⟩

theorem c2_head_of_line_witness :
    (∀ s e, (creditPeekSat s e).proceed = true → (creditPeekSat s e).trig = true) ∧
    (∃ s2 q2 tr, trigger creditPeekSat (List.replicate 2 ()) [0, 5, 1] = Except.ok (s2, q2, tr) ∧
      tr.map Prod.fst = [0, 5, 1].take tr.length ∧
      (∀ p ∈ tr.dropLast, p.2 = true)) := by
  have H : ∀ s e, (creditPeekSat s e).proceed = true → (creditPeekSat s e).trig = true := by
    intro s e hp
    unfold creditPeekSat creditDoPeek at hp ⊢
    by_cases hc : e < s.length <;> simp [hc] at hp ⊢
  exact ⟨H, c2_head_of_line creditPeekSat H (List.replicate 2 ()) [0, 5, 1]⟩

theorem c3_queue_holds_only_pending_witness :
    (∀ s e, (creditPeekSat s e).proceed = true → (creditPeekSat s e).trig = true) ∧
    ([0, 5, 1] : List Nat).Nodup ∧
    (∃ s2 q2 tr, trigger creditPeekSat (List.replicate 2 ()) [0, 5, 1] = Except.ok (s2, q2, tr) ∧
      ∀ x, (x, true) ∈ tr → x ∉ q2) := by
  have H : ∀ s e, (creditPeekSat s e).proceed = true → (creditPeekSat s e).trig = true := by
    intro s e hp
    unfold creditPeekSat creditDoPeek at hp ⊢
    by_cases hc : e < s.length <;> simp [hc] at hp ⊢
  exact ⟨H, by decide,
    c3_queue_holds_only_pending creditPeekSat H (List.replicate 2 ()) [0, 5, 1] (by decide)⟩

theorem c9_occupancy_bounds_witness :
    ((⟨[3, 4], 2⟩ : BufState Nat).items.length ≤ 2) ∧
    (((bufferDoPut (⟨[3, 4], 2⟩ : BufState Nat) 5 0).1.items.length ≤ 2 ∧
      ((⟨[3, 4], 2⟩ : BufState Nat).items.length = 2 →
        bufferDoPut (⟨[3, 4], 2⟩ : BufState Nat) 5 0 = (⟨[3, 4], 2⟩, false, false))) ∧
    ((bufferDoGet (⟨[3, 4], 2⟩ : BufState Nat) 0).1.items.length ≤
        (⟨[3, 4], 2⟩ : BufState Nat).items.length ∧
      ((⟨[3, 4], 2⟩ : BufState Nat).items.length = 0 →
        bufferDoGet (⟨[3, 4], 2⟩ : BufState Nat) 0 = (⟨[3, 4], 2⟩, none, false)))) :=
  ⟨by decide, c9_occupancy_bounds (⟨[3, 4], 2⟩ : BufState Nat) 5 0 0 (by decide)⟩

theorem pyIdx_ofNat (n m : Nat) : pyIdx n (m : Int) = m % n := by
  unfold pyIdx
  rw [← Int.ofNat_emod]
  omega

theorem addMod_inj (n s : Nat) :
    ∀ j1 j2, j1 < n → j2 < n → (s + j1) % n = (s + j2) % n → j1 = j2 := by
  have key : ∀ j1 j2, j1 ≤ j2 → j2 < n → (s + j1) % n = (s + j2) % n → j1 = j2 := by
    intro j1 j2 hle hlt he
    have hmod : j1 % n = j2 % n :=
      Nat.ModEq.add_left_cancel (Nat.ModEq.refl s) he
    rw [Nat.mod_eq_of_lt (by omega), Nat.mod_eq_of_lt hlt] at hmod
    exact hmod
  intro j1 j2 h1 h2 he
  rcases Nat.le_total j1 j2 with hle | hle
  · exact key j1 j2 hle h2 he
  · exact (key j2 j1 hle h1 he.symm).symm

theorem addMod_cover (n s i : Nat) (hn : 0 < n) (hi : i < n) :
    ∃ j, j < n ∧ (s + j) % n = i := by
  have hsn : s % n < n := Nat.mod_lt s hn
  by_cases hc : s % n ≤ i
  · refine ⟨i - s % n, by omega, ?_⟩
    conv_lhs => rw [Nat.add_mod]
    rw [Nat.mod_eq_of_lt (show i - s % n < n by omega)]
    have h2 : s % n + (i - s % n) = i := by omega
    rw [h2, Nat.mod_eq_of_lt hi]
  · refine ⟨i + n - s % n, by omega, ?_⟩
    conv_lhs => rw [Nat.add_mod]
    rw [Nat.mod_eq_of_lt (show i + n - s % n < n by omega)]
    have h2 : s % n + (i + n - s % n) = i + n := by omega
    rw [h2, Nat.add_mod_right, Nat.mod_eq_of_lt hi]

theorem scanFirst_spec (pktList : List Bool) (n : Nat) (hn : 0 < n) :
    ∀ (k start : Nat), start < n →
      (∀ c, scanFirst pktList n start k = some c →
        ∃ j, j < k ∧ c = (start + j) % n ∧ pktList.getD c false = true ∧
          ∀ j2, j2 < j → pktList.getD ((start + j2) % n) false = false) ∧
      (scanFirst pktList n start k = none →
        ∀ j, j < k → pktList.getD ((start + j) % n) false = false) := by
  intro k
  induction k with
  | zero =>
    intro start _
    constructor
    · intro c hc
      simp [scanFirst] at hc
    · intro _ j hj
      omega
  | succ k ihk =>
    intro start hstart
    have hstep : scanFirst pktList n start (k+1) =
        if pktList.getD start false then some start
        else scanFirst pktList n ((start + 1) % n) k := rfl
    by_cases hp : pktList.getD start false = true
    · constructor
      · intro c hc
        rw [hstep, if_pos hp] at hc
        have hcs : start = c := Option.some.inj hc
        refine ⟨0, by omega, ?_, by rw [← hcs]; exact hp, by intro j2 hj2; omega⟩
        rw [Nat.add_zero, Nat.mod_eq_of_lt hstart, hcs]
      · intro hc
        rw [hstep, if_pos hp] at hc
        cases hc
    · have hpf : pktList.getD start false = false := by
        cases hx : pktList.getD start false
        · rfl
        · exact absurd hx hp
      have hstart2 : (start + 1) % n < n := Nat.mod_lt _ hn
      obtain ⟨ihsome, ihnone⟩ := ihk ((start + 1) % n) hstart2
      constructor
      · intro c hc
        rw [hstep, if_neg hp] at hc
        obtain ⟨j, hj, hceq, hcp, hmin⟩ := ihsome c hc
        refine ⟨j + 1, by omega, ?_, hcp, ?_⟩
        · calc c = ((start + 1) % n + j) % n := hceq
            _ = (start + 1 + j) % n := Nat.mod_add_mod _ _ _
            _ = (start + (j + 1)) % n := congrArg (· % n) (by omega)
        · intro j2 hj2
          cases j2 with
          | zero => rw [Nat.add_zero, Nat.mod_eq_of_lt hstart]; exact hpf
          | succ j3 =>
            have h3 := hmin j3 (by omega)
            calc pktList.getD ((start + (j3 + 1)) % n) false
                = pktList.getD ((start + 1 + j3) % n) false := by
                  rw [show start + (j3 + 1) = start + 1 + j3 from by omega]
              _ = pktList.getD (((start + 1) % n + j3) % n) false := by
                  rw [Nat.mod_add_mod]
              _ = false := h3
      · intro hc
        rw [hstep, if_neg hp] at hc
        intro j hj
        cases j with
        | zero => rw [Nat.add_zero, Nat.mod_eq_of_lt hstart]; exact hpf
        | succ j3 =>
          have h3 := ihnone hc j3 (by omega)
          calc pktList.getD ((start + (j3 + 1)) % n) false
              = pktList.getD (((start + 1) % n + j3) % n) false := by
                rw [Nat.mod_add_mod, show start + 1 + j3 = start + (j3 + 1) from by omega]
            _ = false := h3

theorem scanFirst_total (pktList : List Bool) (n : Nat) (hn : 0 < n) (start : Nat)
    (hstart : start < n) (hex : ∃ i, i < n ∧ pktList.getD i false = true) :
    ∃ c, scanFirst pktList n start n = some c := by
  cases hsc : scanFirst pktList n start n with
  | some c => exact ⟨c, rfl⟩
  | none =>
    obtain ⟨i, hi, hp⟩ := hex
    obtain ⟨j, hj, hcov⟩ := addMod_cover n start i hn hi
    have hf := (scanFirst_spec pktList n hn n start hstart).2 hsc j hj
    rw [hcov, hp] at hf
    cases hf

theorem rrTrace_full_contention (n : Nat) (hn : 0 < n) (pktList : List Bool)
    (hfull : ∀ i, i < n → pktList.getD i false = true) :
    ∀ (m : Nat) (lastport : Int),
      rrTrace n pktList lastport m = some ((pyIdx n (lastport + 1) + m) % n) := by
  have harb : ∀ lastport : Int,
      rrArbitratePkts n lastport pktList = some (pyIdx n (lastport + 1)) := by
    intro lastport
    have hstart : pyIdx n (lastport + 1) < n := pyIdx_lt n hn _
    unfold rrArbitratePkts
    cases n with
    | zero => omega
    | succ n0 =>
      show (if pktList.getD (pyIdx (n0+1) (lastport + 1)) false
          then some (pyIdx (n0+1) (lastport + 1))
          else scanFirst pktList (n0+1) ((pyIdx (n0+1) (lastport + 1) + 1) % (n0+1)) n0) = _
      rw [if_pos (hfull _ hstart)]
  intro m
  induction m with
  | zero =>
    intro lastport
    have hstart : pyIdx n (lastport + 1) < n := pyIdx_lt n hn _
    show (rrStep n pktList lastport).1 = _
    unfold rrStep
    rw [harb lastport]
    rw [Nat.add_zero, Nat.mod_eq_of_lt hstart]
  | succ m ihm =>
    intro lastport
    show rrTrace n pktList (rrStep n pktList lastport).2 m = _
    have hsnd : (rrStep n pktList lastport).2 = ((pyIdx n (lastport + 1) : Nat) : Int) := by
      unfold rrStep
      rw [harb lastport]
    rw [hsnd, ihm]
    have hcast : pyIdx n (((pyIdx n (lastport + 1) : Nat) : Int) + 1) =
        (pyIdx n (lastport + 1) + 1) % n := by
      have h1 : ((pyIdx n (lastport + 1) : Nat) : Int) + 1 =
          (((pyIdx n (lastport + 1) + 1 : Nat)) : Int) := by push_cast; ring
      rw [h1, pyIdx_ofNat]
    rw [hcast]
    congr 1
    calc ((pyIdx n (lastport + 1) + 1) % n + m) % n
        = (pyIdx n (lastport + 1) + 1 + m) % n := Nat.mod_add_mod _ _ _
      _ = (pyIdx n (lastport + 1) + (m + 1)) % n := congrArg (· % n) (by omega)

/-- C5: a round-robin arbitration call scans forward from
(lastServed + 1) mod N, wrapping, and returns the first input offering a
candidate; consequently, when every input continuously offers a
candidate, round m of the ensuing sequence picks input
((lastServed + 1) mod N + m) mod N, so over N consecutive rounds every
input is chosen exactly once, in increasing cyclic port order starting
from (lastServed + 1) mod N. -/
theorem c5_round_robin_service (n : Nat) (hn : 0 < n) (lastport : Int) (pktList : List Bool) :
    (∀ c, rrArbitratePkts n lastport pktList = some c →
      ∃ j, j < n ∧ c = (pyIdx n (lastport + 1) + j) % n ∧ pktList.getD c false = true ∧
        ∀ j2, j2 < j → pktList.getD ((pyIdx n (lastport + 1) + j2) % n) false = false) ∧
    ((∀ i, i < n → pktList.getD i false = true) →
      (∀ m, rrTrace n pktList lastport m = some ((pyIdx n (lastport + 1) + m) % n)) ∧
      (∀ p, p < n → ∃! m, m < n ∧ rrTrace n pktList lastport m = some p)) := by
  have hstart : pyIdx n (lastport + 1) < n := pyIdx_lt n hn _
  constructor
  · intro c hc
    exact (scanFirst_spec pktList n hn n (pyIdx n (lastport + 1)) hstart).1 c hc
  · intro hfull
    have htr := fun m => rrTrace_full_contention n hn pktList hfull m lastport
    refine ⟨htr, ?_⟩
    intro p hp
    obtain ⟨j, hj, hcov⟩ := addMod_cover n (pyIdx n (lastport + 1)) p hn hp
    refine ⟨j, ⟨hj, by rw [htr j, hcov]⟩, ?_⟩
    intro y hy
    obtain ⟨hylt, hytr⟩ := hy
    rw [htr y] at hytr
    have heq : (pyIdx n (lastport + 1) + y) % n = p := Option.some.inj hytr
    exact addMod_inj n (pyIdx n (lastport + 1)) y j hylt hj (by rw [heq, hcov])

theorem c5_round_robin_service_witness :
    0 < 4 ∧
    ((∀ c, rrArbitratePkts 4 (-1) (List.replicate 4 true) = some c →
      ∃ j, j < 4 ∧ c = (pyIdx 4 (-1 + 1) + j) % 4 ∧
        (List.replicate 4 true).getD c false = true ∧
        ∀ j2, j2 < j → (List.replicate 4 true).getD ((pyIdx 4 (-1 + 1) + j2) % 4) false = false) ∧
    ((∀ i, i < 4 → (List.replicate 4 true).getD i false = true) →
      (∀ m, rrTrace 4 (List.replicate 4 true) (-1) m = some ((pyIdx 4 (-1 + 1) + m) % 4)) ∧
      (∀ p, p < 4 → ∃! m, m < 4 ∧ rrTrace 4 (List.replicate 4 true) (-1) m = some p))) :=
  ⟨by decide, c5_round_robin_service 4 (by decide) (-1) (List.replicate 4 true)⟩

theorem fpMasked_getD (n : Nat) (priorities : List Nat) (pktList : List Bool) (m i : Nat)
    (hi : i < n) :
    (fpMasked n priorities pktList m).getD i false =
      (pktList.getD i false && decide (priorities.getD i 0 = m)) := by
  unfold fpMasked
  rw [List.getD_eq_getElem?_getD, List.getElem?_map, List.getElem?_range hi]
  rfl

theorem fpActive_mem (n : Nat) (pktList : List Bool) (i : Nat) :
    i ∈ fpActive n pktList ↔ i < n ∧ pktList.getD i false = true := by
  unfold fpActive
  rw [List.mem_filter, List.mem_range]

/-- C7: with a non-empty candidate list, the fixed-priority arbiter
returns a candidate of the numerically highest priority class present
(no lower-class input is chosen while a higher-class input offers a
candidate), and ties inside that class are broken round-robin from the
per-class lastServed pointer of that class: the winner is the first
top-class candidate in cyclic scan order from
(lastServedOfClass + 1) mod N. -/
theorem c7_fixed_priority_class (n : Nat) (hn : 0 < n) (priorities : List Nat)
    (lastportPerClass : Nat → Int) (pktList : List Bool)
    (hact : ∃ i, i < n ∧ pktList.getD i false = true) :
    ∃ c, fpArbitratePkts n priorities lastportPerClass pktList = some c ∧
      c < n ∧ pktList.getD c false = true ∧
      (∀ j, j < n → pktList.getD j false = true →
        priorities.getD j 0 ≤ priorities.getD c 0) ∧
      (∃ j, j < n ∧
        c = (pyIdx n (lastportPerClass (priorities.getD c 0) + 1) + j) % n ∧
        ∀ j2, j2 < j →
          ¬(pktList.getD ((pyIdx n (lastportPerClass (priorities.getD c 0) + 1) + j2) % n)
              false = true ∧
            priorities.getD ((pyIdx n (lastportPerClass (priorities.getD c 0) + 1) + j2) % n)
              0 = priorities.getD c 0)) := by
  obtain ⟨i0, hi0, hp0⟩ := hact
  have hmem : i0 ∈ fpActive n pktList := (fpActive_mem n pktList i0).mpr ⟨hi0, hp0⟩
  obtain ⟨maxp, hmax⟩ :
      ∃ m, ((fpActive n pktList).map (fun p => priorities.getD p 0)).max? = some m := by
    cases hm : ((fpActive n pktList).map (fun p => priorities.getD p 0)).max? with
    | some m => exact ⟨m, rfl⟩
    | none =>
      rw [List.max?_eq_none_iff, List.map_eq_nil_iff] at hm
      rw [hm] at hmem
      cases hmem
  obtain ⟨hmaxmem, hmaxub⟩ := List.max?_eq_some_iff'.mp hmax
  obtain ⟨p0, hp0mem, hp0eq⟩ := List.mem_map.mp hmaxmem
  have hp0lt : p0 < n := ((fpActive_mem n pktList p0).mp hp0mem).1
  have hp0pkt : pktList.getD p0 false = true := ((fpActive_mem n pktList p0).mp hp0mem).2
  have hmaskedp0 : (fpMasked n priorities pktList maxp).getD p0 false = true := by
    rw [fpMasked_getD n priorities pktList maxp p0 hp0lt, hp0pkt, hp0eq]
    simp
  have hstart : pyIdx n (lastportPerClass maxp + 1) < n := pyIdx_lt n hn _
  obtain ⟨c, hc⟩ := scanFirst_total (fpMasked n priorities pktList maxp) n hn
    (pyIdx n (lastportPerClass maxp + 1)) hstart ⟨p0, hp0lt, hmaskedp0⟩
  have hres : fpArbitratePkts n priorities lastportPerClass pktList = some c := by
    unfold fpArbitratePkts
    rw [hmax]
    exact hc
  obtain ⟨j, hj, hceq, hcmask, hmin⟩ :=
    (scanFirst_spec (fpMasked n priorities pktList maxp) n hn n
      (pyIdx n (lastportPerClass maxp + 1)) hstart).1 c hc
  have hclt : c < n := by rw [hceq]; exact Nat.mod_lt _ hn
  rw [fpMasked_getD n priorities pktList maxp c hclt] at hcmask
  have hcpkt : pktList.getD c false = true := ((Bool.and_eq_true _ _).mp hcmask).1
  have hcprio : priorities.getD c 0 = maxp :=
    of_decide_eq_true ((Bool.and_eq_true _ _).mp hcmask).2
  refine ⟨c, hres, hclt, hcpkt, ?_, j, hj, ?_, ?_⟩
  · intro j' hj' hpj'
    have hjm : priorities.getD j' 0 ∈
        (fpActive n pktList).map (fun p => priorities.getD p 0) :=
      List.mem_map.mpr ⟨j', (fpActive_mem n pktList j').mpr ⟨hj', hpj'⟩, rfl⟩
    rw [hcprio]
    exact hmaxub _ hjm
  · rw [hcprio]
    exact hceq
  · intro j2 hj2 hand
    rw [hcprio] at hand
    obtain ⟨hpk2, hpr2⟩ := hand
    have hc2lt : (pyIdx n (lastportPerClass maxp + 1) + j2) % n < n := Nat.mod_lt _ hn
    have hzero := hmin j2 hj2
    rw [fpMasked_getD n priorities pktList maxp _ hc2lt, hpk2, hpr2] at hzero
    simp at hzero

theorem c7_fixed_priority_class_witness :
    (∃ i, i < 3 ∧ ([true, true, true] : List Bool).getD i false = true) ∧
    (∃ c, fpArbitratePkts 3 [1, 5, 5] (fun _ => (-1 : Int)) [true, true, true] = some c ∧
      c < 3 ∧ ([true, true, true] : List Bool).getD c false = true ∧
      (∀ j, j < 3 → ([true, true, true] : List Bool).getD j false = true →
        ([1, 5, 5] : List Nat).getD j 0 ≤ ([1, 5, 5] : List Nat).getD c 0) ∧
      (∃ j, j < 3 ∧
        c = (pyIdx 3 ((fun _ => (-1 : Int)) (([1, 5, 5] : List Nat).getD c 0) + 1) + j) % 3 ∧
        ∀ j2, j2 < j →
          ¬(([true, true, true] : List Bool).getD
              ((pyIdx 3 ((fun _ => (-1 : Int)) (([1, 5, 5] : List Nat).getD c 0) + 1) + j2) % 3)
              false = true ∧
            ([1, 5, 5] : List Nat).getD
              ((pyIdx 3 ((fun _ => (-1 : Int)) (([1, 5, 5] : List Nat).getD c 0) + 1) + j2) % 3)
              0 = ([1, 5, 5] : List Nat).getD c 0))) :=
  ⟨⟨0, by decide, rfl⟩,
    c7_fixed_priority_class 3 (by decide) [1, 5, 5] (fun _ => (-1 : Int)) [true, true, true]
      ⟨0, by decide, rfl⟩⟩

theorem repTrue_getD (n i : Nat) (h : i < n) : (List.replicate n true).getD i false = true := by
  rw [List.getD_eq_getElem?_getD, List.getElem?_replicate]
  simp [h]

theorem repZero_getD (n i : Nat) : (List.replicate n 0).getD i 0 = 0 := by
  rw [List.getD_eq_getElem?_getD, List.getElem?_replicate]
  by_cases h : i < n <;> simp [h]

theorem setGetD_self (l : List Nat) (i a : Nat) (h : i < l.length) :
    (l.set i a).getD i 0 = a := by
  rw [List.getD_eq_getElem?_getD, List.getElem?_set_self h]
  rfl

theorem setGetD_other (l : List Nat) (i a j : Nat) (hne : j ≠ i) :
    (l.set i a).getD j 0 = l.getD j 0 := by
  rw [List.getD_eq_getElem?_getD, List.getElem?_set_ne (fun h => hne h.symm),
    ← List.getD_eq_getElem?_getD]

theorem eVec_length (n i k : Nat) : (eVec n i k).length = n := by
  unfold eVec
  rw [List.length_set, List.length_replicate]

theorem eVec_getD_self (n i k : Nat) (h : i < n) : (eVec n i k).getD i 0 = k := by
  unfold eVec
  exact setGetD_self _ i k (by rw [List.length_replicate]; exact h)

theorem eVec_getD_other (n i k j : Nat) (hne : j ≠ i) : (eVec n i k).getD j 0 = 0 := by
  unfold eVec
  rw [setGetD_other _ i k j hne, repZero_getD]

theorem eVec_set_self (n i k k2 : Nat) : (eVec n i k).set i k2 = eVec n i k2 := by
  unfold eVec
  rw [List.set_set]

theorem eVec_zero (n i : Nat) : eVec n i 0 = List.replicate n 0 := by
  unfold eVec
  exact List.set_replicate_self ..

theorem getD_le_sum : ∀ (w : List Nat) (i : Nat), i < w.length → w.getD i 0 ≤ w.sum := by
  intro w
  induction w with
  | nil => intro i h; simp at h
  | cons a t iht =>
    intro i h
    cases i with
    | zero =>
      show a ≤ (a :: t).sum
      rw [List.sum_cons]
      omega
    | succ i2 =>
      have h2 : t.getD i2 0 ≤ t.sum := iht i2 (by simp at h; omega)
      calc (a :: t).getD (i2 + 1) 0 = t.getD i2 0 := by rw [List.getD_cons_succ]
        _ ≤ t.sum := h2
        _ ≤ (a :: t).sum := by rw [List.sum_cons]; omega

theorem sum_eq_range_getD : ∀ (w : List Nat),
    w.sum = ∑ j in Finset.range w.length, w.getD j 0 := by
  intro w
  induction w with
  | nil => simp
  | cons a t iht =>
    rw [List.sum_cons, List.length_cons, Finset.sum_range_succ']
    have hcongr : ∀ j ∈ Finset.range t.length,
        (a :: t).getD (j + 1) 0 = t.getD j 0 := by
      intro j _
      rw [List.getD_cons_succ]
    rw [Finset.sum_congr rfl hcongr, List.getD_cons_zero, ← iht]
    omega

theorem addMod_eq_offsets (n i t1 t2 : Nat) (h : t1 ≤ t2) (hd : t2 - t1 < n)
    (he : (i + t1) % n = (i + t2) % n) : t1 = t2 := by
  have hmod : t1 ≡ t2 [MOD n] := Nat.ModEq.add_left_cancel (Nat.ModEq.refl i) he
  have hdvd : n ∣ t2 - t1 := (Nat.modEq_iff_dvd' h).mp hmod
  have := Nat.eq_zero_of_dvd_of_lt hdvd hd
  omega

theorem addMod_shift (n c j : Nat) : ((c + 1) % n + j) % n = (c + (j + 1)) % n := by
  rw [Nat.mod_add_mod]
  exact congrArg (· % n) (by omega)

theorem scanW_some (n : Nat) (hn : 0 < n) (w : List Nat) :
    ∀ (k c u : Nat), c < n → scanW n w c k = some u → u < n ∧ 0 < w.getD u 0 := by
  intro k
  induction k with
  | zero =>
    intro c u _ h
    simp [scanW] at h
  | succ k ihk =>
    intro c u hc h
    have hstep : scanW n w c (k+1) =
        if 0 < w.getD c 0 then some c else scanW n w ((c + 1) % n) k := rfl
    rw [hstep] at h
    by_cases hp : 0 < w.getD c 0
    · rw [if_pos hp] at h
      have hcu : c = u := Option.some.inj h
      rw [← hcu]
      exact ⟨hc, hp⟩
    · rw [if_neg hp] at h
      exact ihk ((c + 1) % n) u (Nat.mod_lt _ hn) h

theorem scanW_none_spec (n : Nat) (hn : 0 < n) (w : List Nat) :
    ∀ (k c : Nat), c < n → scanW n w c k = none →
      ∀ j, j < k → w.getD ((c + j) % n) 0 = 0 := by
  intro k
  induction k with
  | zero =>
    intro c _ _ j hj
    omega
  | succ k ihk =>
    intro c hc h j hj
    have hstep : scanW n w c (k+1) =
        if 0 < w.getD c 0 then some c else scanW n w ((c + 1) % n) k := rfl
    rw [hstep] at h
    by_cases hp : 0 < w.getD c 0
    · rw [if_pos hp] at h
      cases h
    · rw [if_neg hp] at h
      cases j with
      | zero => rw [Nat.add_zero, Nat.mod_eq_of_lt hc]; omega
      | succ j3 =>
        have h3 := ihk ((c + 1) % n) (Nat.mod_lt _ hn) h j3 (by omega)
        rw [addMod_shift] at h3
        exact h3

theorem scanW_none_of_zeros (n : Nat) (hn : 0 < n) (w : List Nat) :
    ∀ (k c : Nat), c < n → (∀ j, j < k → w.getD ((c + j) % n) 0 = 0) →
      scanW n w c k = none := by
  intro k
  induction k with
  | zero =>
    intro c _ _
    rfl
  | succ k ihk =>
    intro c hc hz
    have hstep : scanW n w c (k+1) =
        if 0 < w.getD c 0 then some c else scanW n w ((c + 1) % n) k := rfl
    rw [hstep]
    have h0 : w.getD c 0 = 0 := by
      have := hz 0 (by omega)
      rw [Nat.add_zero, Nat.mod_eq_of_lt hc] at this
      exact this
    rw [if_neg (by omega)]
    refine ihk ((c + 1) % n) (Nat.mod_lt _ hn) ?_
    intro j hj
    rw [addMod_shift]
    exact hz (j + 1) (by omega)

theorem scanW_find (n : Nat) (hn : 0 < n) (w : List Nat) :
    ∀ (k c dj : Nat), c < n → dj < k → 0 < w.getD ((c + dj) % n) 0 →
      (∀ j2, j2 < dj → w.getD ((c + j2) % n) 0 = 0) →
      scanW n w c k = some ((c + dj) % n) := by
  intro k
  induction k with
  | zero =>
    intro c dj _ hdj _ _
    omega
  | succ k ihk =>
    intro c dj hc hdj hpos hz
    have hstep : scanW n w c (k+1) =
        if 0 < w.getD c 0 then some c else scanW n w ((c + 1) % n) k := rfl
    rw [hstep]
    cases dj with
    | zero =>
      rw [Nat.add_zero, Nat.mod_eq_of_lt hc] at hpos
      rw [if_pos hpos, Nat.add_zero, Nat.mod_eq_of_lt hc]
    | succ dj2 =>
      have h0 : w.getD c 0 = 0 := by
        have := hz 0 (by omega)
        rw [Nat.add_zero, Nat.mod_eq_of_lt hc] at this
        exact this
      rw [if_neg (by omega)]
      have hres := ihk ((c + 1) % n) dj2 (Nat.mod_lt _ hn) (by omega)
        (by rw [addMod_shift]; exact hpos)
        (by intro j2 hj2; rw [addMod_shift]; exact hz (j2 + 1) (by omega))
      rw [hres, addMod_shift]

theorem lastNZd_le (n : Nat) (w : List Nat) (i : Nat) :
    ∀ len, lastNZd n w i len ≤ len := by
  intro len
  induction len with
  | zero => exact Nat.le_refl 0
  | succ len ihl =>
    show (if 0 < w.getD ((i + (len + 1)) % n) 0 then len + 1 else lastNZd n w i len) ≤ len + 1
    by_cases hp : 0 < w.getD ((i + (len + 1)) % n) 0
    · rw [if_pos hp]
    · rw [if_neg hp]
      omega

theorem lastNZd_zero_after (n : Nat) (w : List Nat) (i : Nat) :
    ∀ len t, lastNZd n w i len < t → t ≤ len → w.getD ((i + t) % n) 0 = 0 := by
  intro len
  induction len with
  | zero =>
    intro t h1 h2
    omega
  | succ len ihl =>
    intro t h1 h2
    have hstep : lastNZd n w i (len + 1) =
        if 0 < w.getD ((i + (len + 1)) % n) 0 then len + 1 else lastNZd n w i len := rfl
    rw [hstep] at h1
    by_cases hp : 0 < w.getD ((i + (len + 1)) % n) 0
    · rw [if_pos hp] at h1
      omega
    · rw [if_neg hp] at h1
      by_cases ht : t = len + 1
      · rw [ht]
        omega
      · exact ihl t h1 (by omega)

theorem wrrLoop_succ (n : Nat) (w : List Nat) (pkts : List Bool) (k : Nat) (cand : Int)
    (g : List Nat) (sel : Option Int) :
    wrrLoop n w pkts (k+1) cand g sel =
      if pkts.getD (pyIdx n cand) false then
        if g.getD (pyIdx n cand) 0 < w.getD (pyIdx n cand) 0 then (g, some cand)
        else
          wrrLoop n w pkts k ((cand + 1) % (n : Int))
            (if g.getD (pyIdx n cand) 0 = w.getD (pyIdx n cand) 0
              then g.set (pyIdx n cand) 0 else g)
            (if sel.isNone then some cand else sel)
      else wrrLoop n w pkts k ((cand + 1) % (n : Int)) g sel := rfl

theorem wrr_serve_step (n : Nat) (hn : 0 < n) (w g : List Nat) (r : Int)
    (hhead : g.getD (pyIdx n r) 0 < w.getD (pyIdx n r) 0) :
    wrrStep n w ⟨g, r⟩ =
      (some r, ⟨g.set (pyIdx n r) (g.getD (pyIdx n r) 0 + 1), r⟩) := by
  have hlt : pyIdx n r < n := pyIdx_lt n hn r
  have hloop : wrrLoop n w (List.replicate n true) n r g none = (g, some r) := by
    cases n with
    | zero => omega
    | succ n2 =>
      rw [wrrLoop_succ, repTrue_getD _ _ hlt, if_pos rfl, if_pos hhead]
  simp only [wrrStep, wrrArbitratePkts]
  rw [hloop]

theorem wrr_loop_zeros (n : Nat) (hn : 0 < n) (w : List Nat) (r0 : Int) :
    ∀ (k : Nat) (c : Nat), c < n →
      wrrLoop n w (List.replicate n true) k ((c : Nat) : Int) (List.replicate n 0) (some r0) =
        (List.replicate n 0,
          match scanW n w c k with
          | some u => some ((u : Nat) : Int)
          | none => some r0) := by
  intro k
  induction k with
  | zero =>
    intro c _
    rfl
  | succ k ihk =>
    intro c hc
    have hpy : pyIdx n ((c : Nat) : Int) = c := pyIdx_natCast n hn c hc
    have hsw : scanW n w c (k+1) =
        if 0 < w.getD c 0 then some c else scanW n w ((c + 1) % n) k := rfl
    rw [wrrLoop_succ, hpy, repTrue_getD n c hc, if_pos rfl, repZero_getD n c, hsw]
    by_cases hwc : 0 < w.getD c 0
    · rw [if_pos hwc, if_pos hwc]
    · rw [if_neg hwc, if_neg hwc]
      have hw0 : (0 : Nat) = w.getD c 0 := by omega
      rw [if_pos hw0, List.set_replicate_self]
      have hadv : ((c : Int) + 1) % (n : Int) = (((c + 1) % n : Nat) : Int) := by
        rw [emod_succ_commute n hn, hpy]
      rw [hadv]
      simp only [Option.isNone_some, Bool.false_eq_true, if_false]
      exact ihk ((c + 1) % n) (Nat.mod_lt _ hn)

theorem wrr_sat_step (n : Nat) (hn : 0 < n) (w : List Nat) (i : Nat) (hi : i < n) (r : Int)
    (hr : pyIdx n r = i) :
    ∃ s : Int, wrrStep n w ⟨eVec n i (w.getD i 0), r⟩ =
        (some s, ⟨eVec n (nextBlock n w i) 1, s⟩) ∧ pyIdx n s = nextBlock n w i := by
  cases n with
  | zero => omega
  | succ n2 =>
    have hn2 : 0 < n2 + 1 := by omega
    have hloop1 : wrrLoop (n2+1) w (List.replicate (n2+1) true) (n2+1) r
        (eVec (n2+1) i (w.getD i 0)) none =
        wrrLoop (n2+1) w (List.replicate (n2+1) true) n2 ((r + 1) % (((n2+1) : Nat) : Int))
          (List.replicate (n2+1) 0) (some r) := by
      rw [wrrLoop_succ, hr, repTrue_getD _ i hi, if_pos rfl, eVec_getD_self _ i _ hi,
        if_neg (by omega), if_pos rfl, eVec_set_self, eVec_zero]
      simp only [Option.isNone_none, if_true]
    have hadv : (r + 1) % (((n2+1) : Nat) : Int) = (((i + 1) % (n2+1) : Nat) : Int) := by
      rw [emod_succ_commute _ hn2 r, hr]
    have hz := wrr_loop_zeros (n2+1) hn2 w r n2 ((i + 1) % (n2+1)) (Nat.mod_lt _ hn2)
    cases hsw : scanW (n2+1) w ((i + 1) % (n2+1)) n2 with
    | some u =>
      obtain ⟨hult, hupos⟩ :=
        scanW_some (n2+1) hn2 w n2 ((i + 1) % (n2+1)) u (Nat.mod_lt _ hn2) hsw
      have hnb : nextBlock (n2+1) w i = u := by
        unfold nextBlock
        rw [show (n2 + 1) - 1 = n2 from rfl, hsw]
      refine ⟨((u : Nat) : Int), ?_, by rw [hnb]; exact pyIdx_natCast _ hn2 u hult⟩
      simp only [wrrStep, wrrArbitratePkts]
      rw [hloop1, hadv, hz, hsw]
      have hpyu : pyIdx (n2+1) ((u : Nat) : Int) = u := pyIdx_natCast _ hn2 u hult
      rw [hnb]
      show (some ((u : Nat) : Int),
          (⟨(List.replicate (n2+1) 0).set (pyIdx (n2+1) ((u : Nat) : Int))
            ((List.replicate (n2+1) 0).getD (pyIdx (n2+1) ((u : Nat) : Int)) 0 + 1),
            ((u : Nat) : Int)⟩ : WrrState)) =
        (some ((u : Nat) : Int), (⟨eVec (n2+1) u 1, ((u : Nat) : Int)⟩ : WrrState))
      rw [hpyu, repZero_getD]
      rfl
    | none =>
      have hnb : nextBlock (n2+1) w i = i := by
        unfold nextBlock
        rw [show (n2 + 1) - 1 = n2 from rfl, hsw]
      refine ⟨r, ?_, by rw [hnb]; exact hr⟩
      simp only [wrrStep, wrrArbitratePkts]
      rw [hloop1, hadv, hz, hsw]
      show (some r,
          (⟨(List.replicate (n2+1) 0).set (pyIdx (n2+1) r)
            ((List.replicate (n2+1) 0).getD (pyIdx (n2+1) r) 0 + 1), r⟩ : WrrState)) =
        (some r, (⟨eVec (n2+1) (nextBlock (n2+1) w i) 1, r⟩ : WrrState))
      rw [hr, repZero_getD, hnb]
      rfl

theorem nextBlock_spec (n : Nat) (hn : 0 < n) (w : List Nat) (hw : w.length = n)
    (hsum : 0 < w.sum) (i : Nat) (hi : i < n) :
    nextBlock n w i < n ∧ 0 < w.getD (nextBlock n w i) 0 := by
  unfold nextBlock
  cases hsw : scanW n w ((i + 1) % n) (n - 1) with
  | some u => exact scanW_some n hn w (n-1) _ u (Nat.mod_lt _ hn) hsw
  | none =>
    have hz := scanW_none_spec n hn w (n-1) _ (Nat.mod_lt _ hn) hsw
    have hzero : ∀ j, j < n → j ≠ i → w.getD j 0 = 0 := by
      intro j hj hij
      obtain ⟨t, ht, hcov⟩ := addMod_cover n ((i + 1) % n) j hn hj
      have ht2 : t < n - 1 := by
        by_contra hcon
        have ht3 : t = n - 1 := by omega
        have hieq : ((i + 1) % n + (n - 1)) % n = i := by
          rw [Nat.mod_add_mod]
          have h4 : i + 1 + (n - 1) = i + n := by omega
          rw [h4, Nat.add_mod_right, Nat.mod_eq_of_lt hi]
        rw [ht3, hieq] at hcov
        exact hij hcov.symm
      have h5 := hz t ht2
      rw [hcov] at h5
      exact h5
    have hwi : 0 < w.getD i 0 := by
      by_contra hcon
      have hwi0 : w.getD i 0 = 0 := by omega
      have hs0 : w.sum = 0 := by
        rw [sum_eq_range_getD, hw]
        apply Finset.sum_eq_zero
        intro j hj
        by_cases hij : j = i
        · rw [hij]
          exact hwi0
        · exact hzero j (Finset.mem_range.mp hj) hij
      omega
    exact ⟨hi, hwi⟩

theorem wrrTraceFrom_succ (n : Nat) (w : List Nat) (st : WrrState) (m : Nat) :
    wrrTraceFrom n w st (m+1) = wrrTraceFrom n w (wrrNext n w st) m := by
  unfold wrrTraceFrom
  rw [Function.iterate_succ_apply]

theorem wrrTraceFrom_add (n : Nat) (w : List Nat) (st : WrrState) (a t : Nat) :
    wrrTraceFrom n w st (a + t) = wrrTraceFrom n w ((wrrNext n w)^[a] st) t := by
  unfold wrrTraceFrom
  rw [show a + t = t + a from by omega, Function.iterate_add_apply]

theorem wrrCountFrom_succ (n : Nat) (w : List Nat) (st : WrrState) (len j : Nat) :
    wrrCountFrom n w st (len+1) j =
      wrrCountFrom n w st len j + (if wrrTraceFrom n w st len = j then 1 else 0) := by
  unfold wrrCountFrom
  rw [List.range_succ, List.filter_append, List.length_append]
  congr 1
  by_cases h : wrrTraceFrom n w st len = j <;> simp [h]

theorem wrrCountFrom_split (n : Nat) (w : List Nat) (st : WrrState) (a b j : Nat) :
    wrrCountFrom n w st (a + b) j =
      wrrCountFrom n w st a j + wrrCountFrom n w ((wrrNext n w)^[a] st) b j := by
  induction b with
  | zero =>
    rw [Nat.add_zero]
    have h0 : wrrCountFrom n w ((wrrNext n w)^[a] st) 0 j = 0 := rfl
    omega
  | succ b ihb =>
    rw [show a + (b + 1) = (a + b) + 1 from by omega, wrrCountFrom_succ, ihb,
      wrrCountFrom_succ, wrrTraceFrom_add]
    omega

theorem wrrCountFrom_const (n : Nat) (w : List Nat) (st : WrrState) (d i j : Nat)
    (htr : ∀ t, t < d → wrrTraceFrom n w st t = i) :
    wrrCountFrom n w st d j = if j = i then d else 0 := by
  induction d with
  | zero => by_cases h : j = i <;> simp [h, wrrCountFrom]
  | succ d ihd =>
    rw [wrrCountFrom_succ, ihd (fun t ht => htr t (by omega)), htr d (by omega)]
    by_cases h : j = i
    · rw [if_pos h, if_pos h.symm, if_pos h]
    · rw [if_neg h, if_neg (fun hh => h hh.symm), if_neg h]

theorem wrr_serve_run (n : Nat) (hn : 0 < n) (w : List Nat) (i : Nat) (hi : i < n) (r : Int)
    (hr : pyIdx n r = i) :
    ∀ (d k : Nat), k + d ≤ w.getD i 0 →
      (wrrNext n w)^[d] ⟨eVec n i k, r⟩ = ⟨eVec n i (k + d), r⟩ ∧
      (∀ t, t < d → wrrTraceFrom n w ⟨eVec n i k, r⟩ t = i) := by
  intro d
  induction d with
  | zero =>
    intro k _
    exact ⟨rfl, fun t ht => absurd ht (by omega)⟩
  | succ d ihd =>
    intro k hkd
    have hstep : wrrStep n w ⟨eVec n i k, r⟩ = (some r, ⟨eVec n i (k+1), r⟩) := by
      have hs := wrr_serve_step n hn w (eVec n i k) r
        (by rw [hr, eVec_getD_self n i k hi]; omega)
      rw [hr, eVec_getD_self n i k hi, eVec_set_self] at hs
      exact hs
    have hnext : wrrNext n w ⟨eVec n i k, r⟩ = ⟨eVec n i (k+1), r⟩ := by
      unfold wrrNext
      rw [hstep]
    obtain ⟨hst, htr⟩ := ihd (k+1) (by omega)
    constructor
    · rw [Function.iterate_succ_apply, hnext, hst,
        show k + 1 + d = k + (d + 1) from by omega]
    · intro t ht
      cases t with
      | zero =>
        show wrrTraceFrom n w ⟨eVec n i k, r⟩ 0 = i
        unfold wrrTraceFrom
        rw [Function.iterate_zero_apply, hstep]
        exact hr
      | succ t2 =>
        rw [wrrTraceFrom_succ, hnext]
        exact htr t2 (by omega)

theorem wrr_first_step (n : Nat) (hn : 0 < n) (w : List Nat) (hw : w.length = n)
    (hsum : 0 < w.sum) :
    ∃ i1 r1, i1 < n ∧ 0 < w.getD i1 0 ∧ pyIdx n r1 = i1 ∧
      wrrNext n w (wrrInit n) = ⟨eVec n i1 1, r1⟩ ∧
      wrrTraceFrom n w (wrrInit n) 0 = i1 := by
  have hpyneg : pyIdx n (-1) = n - 1 := pyIdx_neg_one n hn
  have hstinit : wrrInit n = ⟨eVec n (n-1) 0, -1⟩ := by
    unfold wrrInit
    rw [eVec_zero]
  by_cases hwn : 0 < w.getD (n-1) 0
  · have hstep : wrrStep n w ⟨eVec n (n-1) 0, -1⟩ = (some (-1), ⟨eVec n (n-1) 1, -1⟩) := by
      have hs := wrr_serve_step n hn w (eVec n (n-1) 0) (-1)
        (by rw [hpyneg, eVec_getD_self n _ 0 (by omega)]; omega)
      rw [hpyneg, eVec_getD_self n _ 0 (by omega), eVec_set_self] at hs
      exact hs
    refine ⟨n-1, -1, by omega, hwn, hpyneg, ?_, ?_⟩
    · unfold wrrNext
      rw [hstinit, hstep]
    · unfold wrrTraceFrom
      rw [Function.iterate_zero_apply, hstinit, hstep]
      exact hpyneg
  · have hw0 : w.getD (n-1) 0 = 0 := by omega
    obtain ⟨s, hstep, hpys⟩ := wrr_sat_step n hn w (n-1) (by omega) (-1) hpyneg
    rw [hw0] at hstep
    obtain ⟨hult, hupos⟩ := nextBlock_spec n hn w hw hsum (n-1) (by omega)
    refine ⟨nextBlock n w (n-1), s, hult, hupos, hpys, ?_, ?_⟩
    · unfold wrrNext
      rw [hstinit, hstep]
    · unfold wrrTraceFrom
      rw [Function.iterate_zero_apply, hstinit, hstep]
      exact hpys

theorem cw_eq_neg (n : Nat) (_hn : 0 < n) (w : List Nat) (i j : Nat) (_hi : i < n) :
    ∀ len, (∀ t, 1 ≤ t → t ≤ len → (i + t) % n ≠ j) → cw n w i j len = 0 := by
  intro len
  induction len with
  | zero =>
    intro _
    rfl
  | succ len ihl =>
    intro hnone
    have hstep : cw n w i j (len+1) = cw n w i j len +
        (if (i + (len+1)) % n = j then w.getD ((i + (len+1)) % n) 0 else 0) := rfl
    rw [hstep, if_neg (hnone (len+1) (by omega) (by omega)),
      ihl (fun t h1 h2 => hnone t h1 (by omega))]

theorem cw_eq_pos (n : Nat) (hn : 0 < n) (w : List Nat) (i j : Nat) (hi : i < n) :
    ∀ len, len ≤ n → (∃ t, 1 ≤ t ∧ t ≤ len ∧ (i + t) % n = j) →
      cw n w i j len = w.getD j 0 := by
  intro len
  induction len with
  | zero =>
    rintro _ ⟨t, h1, h2, _⟩
    omega
  | succ len ihl =>
    rintro hlen ⟨t, h1, h2, h3⟩
    have hstep : cw n w i j (len+1) = cw n w i j len +
        (if (i + (len+1)) % n = j then w.getD ((i + (len+1)) % n) 0 else 0) := rfl
    by_cases ht : t = len + 1
    · rw [ht] at h3
      have hz : cw n w i j len = 0 := by
        apply cw_eq_neg n hn w i j hi len
        intro t2 ht1 ht2 hcon
        have : t2 = len + 1 :=
          addMod_eq_offsets n i t2 (len+1) (by omega) (by omega) (by rw [hcon, h3])
        omega
      rw [hstep, hz, if_pos h3, h3]
      omega
    · have hprev : cw n w i j len = w.getD j 0 :=
        ihl (by omega) ⟨t, h1, by omega, h3⟩
      have hnot : (i + (len+1)) % n ≠ j := by
        intro hcon
        have : t = len + 1 :=
          addMod_eq_offsets n i t (len+1) (by omega) (by omega) (by rw [h3, hcon])
        omega
      rw [hstep, if_neg hnot, hprev]
      omega

theorem cw_full (n : Nat) (hn : 0 < n) (w : List Nat) (i j : Nat) (hi : i < n) (hj : j < n)
    (hij : j ≠ i) : cw n w i j (n-1) = w.getD j 0 := by
  obtain ⟨t, ht, hcov⟩ := addMod_cover n i j hn hj
  have ht1 : 1 ≤ t := by
    by_contra hc
    have ht0 : t = 0 := by omega
    rw [ht0, Nat.add_zero, Nat.mod_eq_of_lt hi] at hcov
    exact hij hcov.symm
  exact cw_eq_pos n hn w i j hi (n-1) (by omega) ⟨t, ht1, by omega, hcov⟩

theorem cw_self (n : Nat) (hn : 0 < n) (w : List Nat) (i : Nat) (hi : i < n) :
    cw n w i i (n-1) = 0 := by
  apply cw_eq_neg n hn w i i hi (n-1)
  intro t h1 h2 h3
  have h4 : (i + 0) % n = (i + t) % n := by
    rw [Nat.add_zero, Nat.mod_eq_of_lt hi, h3]
  have := addMod_eq_offsets n i 0 t (by omega) (by omega) h4
  omega

theorem cw_n (n : Nat) (hn : 0 < n) (w : List Nat) (i j : Nat) (hi : i < n) (hj : j < n) :
    cw n w i j n = w.getD j 0 := by
  by_cases hij : j = i
  · have hin : (i + n) % n = j := by
      rw [Nat.add_mod_right, Nat.mod_eq_of_lt hi, hij]
    exact cw_eq_pos n hn w i j hi n (Nat.le_refl n) ⟨n, by omega, Nat.le_refl n, hin⟩
  · obtain ⟨t, ht, hcov⟩ := addMod_cover n i j hn hj
    have ht1 : 1 ≤ t := by
      by_contra hc
      have ht0 : t = 0 := by omega
      rw [ht0, Nat.add_zero, Nat.mod_eq_of_lt hi] at hcov
      exact hij hcov.symm
    exact cw_eq_pos n hn w i j hi n (Nat.le_refl n) ⟨t, ht1, by omega, hcov⟩

theorem wsum_eq_sum_cw (n : Nat) (hn : 0 < n) (w : List Nat) (i : Nat) :
    ∀ len, wsum n w i len = ∑ j in Finset.range n, cw n w i j len := by
  intro len
  induction len with
  | zero =>
    have h0 : ∀ j, cw n w i j 0 = 0 := fun _ => rfl
    simp [wsum, h0]
  | succ len ihl =>
    have hu : (i + (len+1)) % n < n := Nat.mod_lt _ hn
    have hstep : wsum n w i (len+1) = wsum n w i len + w.getD ((i + (len+1)) % n) 0 := rfl
    have hcstep : ∀ j, cw n w i j (len+1) = cw n w i j len +
        (if (i + (len+1)) % n = j then w.getD ((i + (len+1)) % n) 0 else 0) := fun _ => rfl
    rw [hstep, ihl]
    rw [Finset.sum_congr rfl (fun j _ => hcstep j), Finset.sum_add_distrib]
    congr 1
    rw [Finset.sum_ite_eq (Finset.range n) ((i + (len+1)) % n)
      (fun _ => w.getD ((i + (len+1)) % n) 0)]
    rw [if_pos (Finset.mem_range.mpr hu)]

theorem wsum_full (n : Nat) (hn : 0 < n) (w : List Nat) (hw : w.length = n) (i : Nat)
    (hi : i < n) : wsum n w i n = w.sum := by
  rw [wsum_eq_sum_cw n hn w i n,
    Finset.sum_congr rfl (fun j hj => cw_n n hn w i j hi (Finset.mem_range.mp hj)),
    sum_eq_range_getD w, hw]

theorem wsum_pred (n : Nat) (hn : 0 < n) (w : List Nat) (hw : w.length = n) (i : Nat)
    (hi : i < n) : wsum n w i (n-1) = w.sum - w.getD i 0 := by
  have hstep : wsum n w i ((n-1)+1) = wsum n w i (n-1) + w.getD ((i + ((n-1)+1)) % n) 0 := rfl
  have hn1 : (n-1) + 1 = n := by omega
  rw [hn1] at hstep
  rw [show (i + n) % n = i from by rw [Nat.add_mod_right, Nat.mod_eq_of_lt hi]] at hstep
  have hfull := wsum_full n hn w hw i hi
  omega

theorem nextBlock_lt (n : Nat) (hn : 0 < n) (w : List Nat) (q : Nat) (hq : q < n) :
    nextBlock n w q < n := by
  unfold nextBlock
  cases hsw : scanW n w ((q+1) % n) (n-1) with
  | some u => exact (scanW_some n hn w (n-1) _ u (Nat.mod_lt _ hn) hsw).1
  | none => exact hq

theorem wrr_block_run (n : Nat) (hn : 0 < n) (w : List Nat) (q : Nat) (hq : q < n) (s : Int)
    (hs : pyIdx n s = q) (hpos : 0 < w.getD (nextBlock n w q) 0) :
    ∃ s2 : Int,
      (wrrNext n w)^[w.getD (nextBlock n w q) 0] ⟨eVec n q (w.getD q 0), s⟩ =
        ⟨eVec n (nextBlock n w q) (w.getD (nextBlock n w q) 0), s2⟩ ∧
      pyIdx n s2 = nextBlock n w q ∧
      (∀ t, t < w.getD (nextBlock n w q) 0 →
        wrrTraceFrom n w ⟨eVec n q (w.getD q 0), s⟩ t = nextBlock n w q) := by
  obtain ⟨s2, hstep2, hpys2⟩ := wrr_sat_step n hn w q hq s hs
  have hult : nextBlock n w q < n := nextBlock_lt n hn w q hq
  have hnext2 : wrrNext n w ⟨eVec n q (w.getD q 0), s⟩ =
      ⟨eVec n (nextBlock n w q) 1, s2⟩ := by
    unfold wrrNext
    rw [hstep2]
  obtain ⟨hsrv, hsrvtr⟩ := wrr_serve_run n hn w (nextBlock n w q) hult s2 hpys2
    (w.getD (nextBlock n w q) 0 - 1) 1 (by omega)
  refine ⟨s2, ?_, hpys2, ?_⟩
  · have hd : w.getD (nextBlock n w q) 0 = (w.getD (nextBlock n w q) 0 - 1) + 1 := by omega
    calc (wrrNext n w)^[w.getD (nextBlock n w q) 0] ⟨eVec n q (w.getD q 0), s⟩
        = (wrrNext n w)^[(w.getD (nextBlock n w q) 0 - 1) + 1]
            ⟨eVec n q (w.getD q 0), s⟩ := by rw [← hd]
      _ = (wrrNext n w)^[w.getD (nextBlock n w q) 0 - 1]
            (wrrNext n w ⟨eVec n q (w.getD q 0), s⟩) := by
          rw [Function.iterate_add_apply, Function.iterate_one]
      _ = (wrrNext n w)^[w.getD (nextBlock n w q) 0 - 1]
            ⟨eVec n (nextBlock n w q) 1, s2⟩ := by rw [hnext2]
      _ = ⟨eVec n (nextBlock n w q) (1 + (w.getD (nextBlock n w q) 0 - 1)), s2⟩ := hsrv
      _ = ⟨eVec n (nextBlock n w q) (w.getD (nextBlock n w q) 0), s2⟩ := by
          rw [show 1 + (w.getD (nextBlock n w q) 0 - 1) = w.getD (nextBlock n w q) 0 from
            by omega]
  · intro t ht
    cases t with
    | zero =>
      unfold wrrTraceFrom
      rw [Function.iterate_zero_apply, hstep2]
      exact hpys2
    | succ t2 =>
      rw [wrrTraceFrom_succ, hnext2]
      exact hsrvtr t2 (by omega)

theorem wrr_blocks (n : Nat) (hn : 0 < n) (w : List Nat) (i : Nat) (hi : i < n) :
    ∀ len, len ≤ n → ∀ (r : Int), pyIdx n r = i →
      ∃ s : Int,
        (wrrNext n w)^[wsum n w i len] ⟨eVec n i (w.getD i 0), r⟩ =
          ⟨eVec n ((i + lastNZd n w i len) % n)
            (w.getD ((i + lastNZd n w i len) % n) 0), s⟩ ∧
        pyIdx n s = (i + lastNZd n w i len) % n ∧
        (∀ j, wrrCountFrom n w ⟨eVec n i (w.getD i 0), r⟩ (wsum n w i len) j =
          cw n w i j len) := by
  intro len
  induction len with
  | zero =>
    intro _ r hr
    have hl0 : lastNZd n w i 0 = 0 := rfl
    have hq0 : (i + lastNZd n w i 0) % n = i := by
      rw [hl0, Nat.add_zero, Nat.mod_eq_of_lt hi]
    have hw0 : wsum n w i 0 = 0 := rfl
    refine ⟨r, ?_, ?_, ?_⟩
    · rw [hq0, hw0, Function.iterate_zero_apply]
    · rw [hq0]
      exact hr
    · intro j
      rfl
  | succ len ihl =>
    intro hlen r hr
    obtain ⟨s, hst, hpys, hcnt⟩ := ihl (by omega) r hr
    have hale : lastNZd n w i len ≤ len := lastNZd_le n w i len
    have hqlt : (i + lastNZd n w i len) % n < n := Nat.mod_lt _ hn
    by_cases hu : 0 < w.getD ((i + (len + 1)) % n) 0
    · have hla : lastNZd n w i (len+1) = len + 1 := by
        have hstepl : lastNZd n w i (len+1) =
            if 0 < w.getD ((i + (len + 1)) % n) 0 then len + 1 else lastNZd n w i len := rfl
        rw [hstepl, if_pos hu]
      have hnbq : nextBlock n w ((i + lastNZd n w i len) % n) = (i + (len + 1)) % n := by
        unfold nextBlock
        by_cases hwrap : lastNZd n w i len = 0 ∧ len + 1 = n
        · obtain ⟨ha0, hlen1⟩ := hwrap
          have hqi : (i + lastNZd n w i len) % n = i := by
            rw [ha0, Nat.add_zero, Nat.mod_eq_of_lt hi]
          have hui : (i + (len + 1)) % n = i := by
            rw [hlen1, Nat.add_mod_right, Nat.mod_eq_of_lt hi]
          have hnone : scanW n w (((i + lastNZd n w i len) % n + 1) % n) (n-1) = none := by
            apply scanW_none_of_zeros n hn w (n-1) _ (Nat.mod_lt _ hn)
            intro j hj
            rw [addMod_shift, hqi]
            exact lastNZd_zero_after n w i len (j+1) (by omega) (by omega)
          rw [hnone]
          show (i + lastNZd n w i len) % n = (i + (len + 1)) % n
          rw [hqi, hui]
        · have hfind := scanW_find n hn w (n-1) (((i + lastNZd n w i len) % n + 1) % n)
            (len - lastNZd n w i len) (Nat.mod_lt _ hn)
            (by
              by_cases ha0 : lastNZd n w i len = 0
              · have hne : ¬(len + 1 = n) := fun hh => hwrap ⟨ha0, hh⟩
                omega
              · omega)
            (by
              rw [addMod_shift, Nat.mod_add_mod,
                show i + lastNZd n w i len + (len - lastNZd n w i len + 1) = i + (len + 1)
                  from by omega]
              exact hu)
            (by
              intro j2 hj2
              rw [addMod_shift, Nat.mod_add_mod,
                show i + lastNZd n w i len + (j2 + 1) = i + (lastNZd n w i len + j2 + 1)
                  from by omega]
              exact lastNZd_zero_after n w i len (lastNZd n w i len + j2 + 1)
                (by omega) (by omega))
          rw [hfind]
          show ((((i + lastNZd n w i len) % n + 1) % n) + (len - lastNZd n w i len)) % n =
            (i + (len + 1)) % n
          rw [addMod_shift, Nat.mod_add_mod,
            show i + lastNZd n w i len + (len - lastNZd n w i len + 1) = i + (len + 1)
              from by omega]
      have hpos2 : 0 < w.getD (nextBlock n w ((i + lastNZd n w i len) % n)) 0 := by
        rw [hnbq]
        exact hu
      obtain ⟨s2, hrun, hpys2, htr2⟩ :=
        wrr_block_run n hn w ((i + lastNZd n w i len) % n) hqlt s hpys hpos2
      rw [hnbq] at hrun hpys2 htr2
      have hws : wsum n w i (len+1) = wsum n w i len + w.getD ((i + (len+1)) % n) 0 := rfl
      refine ⟨s2, ?_, ?_, ?_⟩
      · rw [hws, hla,
          show wsum n w i len + w.getD ((i + (len+1)) % n) 0 =
            w.getD ((i + (len+1)) % n) 0 + wsum n w i len from by omega,
          Function.iterate_add_apply, hst]
        exact hrun
      · rw [hla]
        exact hpys2
      · intro j
        rw [hws, wrrCountFrom_split, hst, hcnt j,
          wrrCountFrom_const n w _ (w.getD ((i + (len+1)) % n) 0) ((i + (len+1)) % n) j htr2]
        have hcstep : cw n w i j (len+1) = cw n w i j len +
            (if (i + (len+1)) % n = j then w.getD ((i + (len+1)) % n) 0 else 0) := rfl
        rw [hcstep]
        by_cases hju : j = (i + (len+1)) % n
        · rw [if_pos hju, if_pos hju.symm]
        · rw [if_neg hju, if_neg (fun hh => hju hh.symm)]
    · have hw0 : w.getD ((i + (len+1)) % n) 0 = 0 := by omega
      have hla : lastNZd n w i (len+1) = lastNZd n w i len := by
        have hstepl : lastNZd n w i (len+1) =
            if 0 < w.getD ((i + (len + 1)) % n) 0 then len + 1 else lastNZd n w i len := rfl
        rw [hstepl, if_neg hu]
      have hws : wsum n w i (len+1) = wsum n w i len := by
        have hstepw : wsum n w i (len+1) =
            wsum n w i len + w.getD ((i + (len+1)) % n) 0 := rfl
        rw [hstepw, hw0]
        omega
      have hcw : ∀ j, cw n w i j (len+1) = cw n w i j len := by
        intro j
        have hstepc : cw n w i j (len+1) = cw n w i j len +
            (if (i + (len+1)) % n = j then w.getD ((i + (len+1)) % n) 0 else 0) := rfl
        rw [hstepc, hw0]
        by_cases hj : (i + (len+1)) % n = j
        · rw [if_pos hj]
          omega
        · rw [if_neg hj]
          omega
      refine ⟨s, ?_, ?_, ?_⟩
      · rw [hws, hla]
        exact hst
      · rw [hla]
        exact hpys
      · intro j
        rw [hws, hcw j]
        exact hcnt j

theorem wrr_cycle_nextBlock (n : Nat) (hn : 0 < n) (w : List Nat) (i : Nat) (hi : i < n)
    (hwi : 0 < w.getD i 0) :
    nextBlock n w ((i + lastNZd n w i (n-1)) % n) = i := by
  have hale : lastNZd n w i (n-1) ≤ n - 1 := lastNZd_le n w i (n-1)
  unfold nextBlock
  by_cases ha0 : lastNZd n w i (n-1) = 0
  · have hqi : (i + lastNZd n w i (n-1)) % n = i := by
      rw [ha0, Nat.add_zero, Nat.mod_eq_of_lt hi]
    have hnone : scanW n w (((i + lastNZd n w i (n-1)) % n + 1) % n) (n-1) = none := by
      apply scanW_none_of_zeros n hn w (n-1) _ (Nat.mod_lt _ hn)
      intro j hj
      rw [addMod_shift, hqi]
      exact lastNZd_zero_after n w i (n-1) (j+1) (by omega) (by omega)
    rw [hnone]
    show (i + lastNZd n w i (n-1)) % n = i
    exact hqi
  · have hfind := scanW_find n hn w (n-1) (((i + lastNZd n w i (n-1)) % n + 1) % n)
      (n - lastNZd n w i (n-1) - 1) (Nat.mod_lt _ hn) (by omega)
      (by
        rw [addMod_shift, Nat.mod_add_mod,
          show i + lastNZd n w i (n-1) + (n - lastNZd n w i (n-1) - 1 + 1) = i + n
            from by omega,
          Nat.add_mod_right, Nat.mod_eq_of_lt hi]
        exact hwi)
      (by
        intro j2 hj2
        rw [addMod_shift, Nat.mod_add_mod,
          show i + lastNZd n w i (n-1) + (j2 + 1) = i + (lastNZd n w i (n-1) + j2 + 1)
            from by omega]
        exact lastNZd_zero_after n w i (n-1) (lastNZd n w i (n-1) + j2 + 1)
          (by omega) (by omega))
    rw [hfind]
    show ((((i + lastNZd n w i (n-1)) % n + 1) % n) + (n - lastNZd n w i (n-1) - 1)) % n = i
    rw [addMod_shift, Nat.mod_add_mod,
      show i + lastNZd n w i (n-1) + (n - lastNZd n w i (n-1) - 1 + 1) = i + n from by omega,
      Nat.add_mod_right, Nat.mod_eq_of_lt hi]

theorem wrr_cycle (n : Nat) (hn : 0 < n) (w : List Nat) (hw : w.length = n) (i k : Nat)
    (hi : i < n) (hk1 : 1 ≤ k) (hkw : k ≤ w.getD i 0) (r : Int) (hr : pyIdx n r = i) :
    (∀ j, j < n → wrrCountFrom n w ⟨eVec n i k, r⟩ w.sum j = w.getD j 0) ∧
    wrrTraceFrom n w ⟨eVec n i k, r⟩ (w.sum - k) = i := by
  have hwi : 0 < w.getD i 0 := by omega
  have hwile : w.getD i 0 ≤ w.sum := getD_le_sum w i (by omega)
  obtain ⟨hstA, htrA⟩ := wrr_serve_run n hn w i hi r hr (w.getD i 0 - k) k (by omega)
  rw [show k + (w.getD i 0 - k) = w.getD i 0 from by omega] at hstA
  obtain ⟨s, hstB, hpysB, hcntB⟩ := wrr_blocks n hn w i hi (n-1) (by omega) r hr
  have hqlt : (i + lastNZd n w i (n-1)) % n < n := Nat.mod_lt _ hn
  have hnbq := wrr_cycle_nextBlock n hn w i hi hwi
  obtain ⟨s2, hstepC, hpysC⟩ := wrr_sat_step n hn w ((i + lastNZd n w i (n-1)) % n) hqlt s hpysB
  rw [hnbq] at hstepC hpysC
  have hnextC : wrrNext n w ⟨eVec n ((i + lastNZd n w i (n-1)) % n)
      (w.getD ((i + lastNZd n w i (n-1)) % n) 0), s⟩ = ⟨eVec n i 1, s2⟩ := by
    unfold wrrNext
    rw [hstepC]
  obtain ⟨hstD, htrD⟩ := wrr_serve_run n hn w i hi s2 hpysC (k - 1) 1 (by omega)
  have hwsB : wsum n w i (n-1) = w.sum - w.getD i 0 := wsum_pred n hn w hw i hi
  constructor
  · intro j hj
    have hdecomp : w.sum =
        (w.getD i 0 - k) + (wsum n w i (n-1) + (1 + (k - 1))) := by
      rw [hwsB]
      omega
    rw [hdecomp, wrrCountFrom_split, hstA, wrrCountFrom_split, hstB, wrrCountFrom_split]
    rw [show (wrrNext n w)^[1] = wrrNext n w from Function.iterate_one (wrrNext n w)]
    rw [hnextC]
    rw [wrrCountFrom_const n w _ (w.getD i 0 - k) i j (fun t ht => htrA t ht)]
    rw [hcntB j]
    have hc3 : wrrCountFrom n w ⟨eVec n ((i + lastNZd n w i (n-1)) % n)
        (w.getD ((i + lastNZd n w i (n-1)) % n) 0), s⟩ 1 j = if j = i then 1 else 0 := by
      apply wrrCountFrom_const
      intro t ht
      have ht0 : t = 0 := by omega
      rw [ht0]
      unfold wrrTraceFrom
      rw [Function.iterate_zero_apply, hstepC]
      exact hpysC
    rw [hc3]
    rw [wrrCountFrom_const n w _ (k - 1) i j (fun t ht => htrD t ht)]
    by_cases hji : j = i
    · rw [if_pos hji, if_pos hji, if_pos hji, hji, cw_self n hn w i hi]
      omega
    · rw [if_neg hji, if_neg hji, if_neg hji, cw_full n hn w i j hi hj hji]
      omega
  · have hgoal : wrrTraceFrom n w ⟨eVec n i k, r⟩
        ((w.getD i 0 - k) + (wsum n w i (n-1) + 0)) = i := by
      rw [wrrTraceFrom_add, hstA, wrrTraceFrom_add, hstB]
      unfold wrrTraceFrom
      rw [Function.iterate_zero_apply, hstepC]
      exact hpysC
    rw [show w.sum - k = (w.getD i 0 - k) + (wsum n w i (n-1) + 0) from by rw [hwsB]; omega]
    exact hgoal

theorem wrr_serving_invariant (n : Nat) (hn : 0 < n) (w : List Nat) (hw : w.length = n)
    (hsum : 0 < w.sum) :
    ∀ m, ∃ i k r, i < n ∧ 1 ≤ k ∧ k ≤ w.getD i 0 ∧ pyIdx n r = i ∧
      (wrrNext n w)^[m] (wrrNext n w (wrrInit n)) = ⟨eVec n i k, r⟩ := by
  intro m
  induction m with
  | zero =>
    obtain ⟨i1, r1, hi1, hw1, hpy1, hnext1, _⟩ := wrr_first_step n hn w hw hsum
    exact ⟨i1, 1, r1, hi1, Nat.le_refl 1, hw1, hpy1,
      by rw [Function.iterate_zero_apply, hnext1]⟩
  | succ m ihm =>
    obtain ⟨i, k, r, hi, hk1, hkw, hpy, hst⟩ := ihm
    by_cases hkws : k < w.getD i 0
    · have hstep : wrrStep n w ⟨eVec n i k, r⟩ = (some r, ⟨eVec n i (k+1), r⟩) := by
        have hs := wrr_serve_step n hn w (eVec n i k) r
          (by rw [hpy, eVec_getD_self n i k hi]; omega)
        rw [hpy, eVec_getD_self n i k hi, eVec_set_self] at hs
        exact hs
      refine ⟨i, k+1, r, hi, by omega, by omega, hpy, ?_⟩
      rw [Function.iterate_succ_apply', hst]
      unfold wrrNext
      rw [hstep]
    · have hkeq : k = w.getD i 0 := by omega
      obtain ⟨s2, hstep2, hpys2⟩ := wrr_sat_step n hn w i hi r hpy
      obtain ⟨hnlt, hnpos⟩ := nextBlock_spec n hn w hw hsum i hi
      refine ⟨nextBlock n w i, 1, s2, hnlt, Nat.le_refl 1, hnpos, hpys2, ?_⟩
      rw [Function.iterate_succ_apply', hst, hkeq]
      unfold wrrNext
      rw [hstep2]

theorem wrrWindow_eq_countFrom (n : Nat) (w : List Nat) (k P j : Nat) :
    wrrWindow n w k P j = wrrCountFrom n w ((wrrNext n w)^[k] (wrrInit n)) P j := by
  unfold wrrWindow wrrCountFrom
  congr 1
  apply List.filter_congr
  intro t _
  have htr : wrrTrace n w (k + t) = wrrTraceFrom n w ((wrrNext n w)^[k] (wrrInit n)) t := by
    unfold wrrTrace
    rw [wrrTraceFrom_add]
  rw [htr]

/-- C6: in a weighted-round-robin crossbar under full contention (every
input offers a candidate at every arbitration call), every window of
sum-of-weights consecutive grants gives input j exactly weights[j]
grants, for every window start; with weights [3, 1] this specializes to
3 grants for input 0 and 1 for input 1 over any 4 consecutive grants. -/
theorem c6_weighted_round_robin_window (n : Nat) (hn : 0 < n) (weights : List Nat)
    (hw : weights.length = n) (hsum : 0 < weights.sum) :
    ∀ k j, j < n → wrrWindow n weights k weights.sum j = weights.getD j 0 := by
  intro k j hj
  rw [wrrWindow_eq_countFrom]
  cases k with
  | succ k2 =>
    rw [Function.iterate_succ_apply]
    obtain ⟨i, kk, r, hi, hk1, hkw, hpy, hst⟩ := wrr_serving_invariant n hn weights hw hsum k2
    rw [hst]
    exact (wrr_cycle n hn weights hw i kk hi hk1 hkw r hpy).1 j hj
  | zero =>
    rw [Function.iterate_zero_apply]
    obtain ⟨i1, r1, hi1, hw1, hpy1, hnext1, htr0⟩ := wrr_first_step n hn weights hw hsum
    rw [show weights.sum = 1 + (weights.sum - 1) from by omega, wrrCountFrom_split]
    rw [show (wrrNext n weights)^[1] (wrrInit n) = wrrNext n weights (wrrInit n) from by
      rw [Function.iterate_one]]
    rw [hnext1]
    have hc1 : wrrCountFrom n weights (wrrInit n) 1 j = if j = i1 then 1 else 0 := by
      apply wrrCountFrom_const
      intro t ht
      have ht0 : t = 0 := by omega
      rw [ht0]
      exact htr0
    rw [hc1]
    obtain ⟨hcyc, htrP1⟩ := wrr_cycle n hn weights hw i1 1 hi1 (Nat.le_refl 1) hw1 r1 hpy1
    have hcycj := hcyc j hj
    have hsucc := wrrCountFrom_succ n weights ⟨eVec n i1 1, r1⟩ (weights.sum - 1) j
    rw [show weights.sum - 1 + 1 = weights.sum from by omega] at hsucc
    by_cases hji : j = i1
    · rw [if_pos hji]
      have heqj : wrrTraceFrom n weights ⟨eVec n i1 1, r1⟩ (weights.sum - 1) = j := by
        rw [htrP1, hji]
      rw [heqj, if_pos rfl] at hsucc
      omega
    · rw [if_neg hji]
      have hnej : ¬(wrrTraceFrom n weights ⟨eVec n i1 1, r1⟩ (weights.sum - 1) = j) := by
        rw [htrP1]
        exact fun hh => hji hh.symm
      rw [if_neg hnej] at hsucc
      omega

theorem c6_weighted_round_robin_window_witness :
    (0 < 2 ∧ ([3, 1] : List Nat).length = 2 ∧ 0 < ([3, 1] : List Nat).sum) ∧
    wrrWindow 2 [3, 1] 0 ([3, 1] : List Nat).sum 0 = ([3, 1] : List Nat).getD 0 0 :=
  ⟨⟨by decide, by decide, by decide⟩,
    c6_weighted_round_robin_window 2 (by decide) [3, 1] (by decide) (by decide) 0 0 (by decide)⟩

/-- C10: a freshly constructed weighted-round-robin crossbar has
lastport = -1, and arbitratePkts starts its scan at the last-served
index itself, so with every input offering a candidate and the
highest-numbered input's weight at least 1 the first call selects
candidate -1 immediately: the raw returned index is -1, Python's alias
for input inPorts - 1, so the first grant goes to the highest-numbered
input and not input 0. -/
theorem c10_wrr_first_grant (n : Nat) (hn : 0 < n) (weights : List Nat)
    (hlast : 1 ≤ weights.getD (n-1) 0) :
    (wrrStep n weights (wrrInit n)).1 = some (-1) ∧ pyIdx n (-1) = n - 1 := by
  have hpyneg : pyIdx n (-1) = n - 1 := pyIdx_neg_one n hn
  have hstep := wrr_serve_step n hn weights (List.replicate n 0) (-1)
    (by rw [hpyneg, repZero_getD]; omega)
  constructor
  · show (wrrStep n weights ⟨List.replicate n 0, -1⟩).1 = some (-1)
    rw [hstep]
  · exact hpyneg

theorem c10_wrr_first_grant_witness :
    (0 < 2 ∧ 1 ≤ ([3, 1] : List Nat).getD (2-1) 0) ∧
    ((wrrStep 2 [3, 1] (wrrInit 2)).1 = some (-1) ∧ pyIdx 2 (-1) = 2 - 1) :=
  ⟨⟨by decide, by decide⟩, c10_wrr_first_grant 2 (by decide) [3, 1] (by decide)⟩

end Spec2Proof
